import Mathlib

/-
Shallow embedding of the anime-subtitle renamer (Go source, file
anime-renamer.go in its de-duplicated variant).  Strings are modelled as
`List Char` at the core (with `String` wrappers), Go `int` as `Int` with
`strconv.Atoi` overflow at 2^63-1 (64-bit platform), and the filesystem
namespace as a duplicate-free list of existing paths.  The injected
`renameFn` of `executeRenameOperationsWith` is modelled by a canonical
path-set move plus a fault oracle on (from, to) pairs, which is the shape
of every rename executor appearing in the repository (os.Rename and the
test doubles).
-/

set_option maxRecDepth 100000

namespace AnimeRenamer

/-! ## Character classes of the Go regexes (RE2 semantics)

`\d` is `[0-9]`; `\s` is `[\t\n\f\r ]`; `(?i)S` matches the Unicode case
folding orbit of S, i.e. S, s and U+017F; `(?i)E` matches E and e. -/

def isSChar (c : Char) : Bool := c = 'S' || c = 's' || c = 'ſ'

def isEChar (c : Char) : Bool := c = 'E' || c = 'e'

def isSpaceRE (c : Char) : Bool := c = '\t' || c = '\n' || c = '\x0c' || c = '\r' || c = ' '

/-! ## strconv.Atoi on the digit-only capture strings

All captures below come from `(\d+)` or `(\d{2,3})`, so they are nonempty
digit strings; `strconv.Atoi` then fails only on 64-bit overflow. -/

def digitsVal (ds : List Char) : Nat := ds.foldl (fun a c => 10 * a + (c.toNat - 48)) 0

def atoiDigits (ds : List Char) : Option Int :=
  if ds.isEmpty then none
  else if ds.all Char.isDigit then
    if digitsVal ds ≤ 9223372036854775807 then some (digitsVal ds) else none
  else none

/-! ## The five episode patterns

Each matcher below implements Go's `FindStringSubmatch` (leftmost-first
backtracking search) for one concrete regex.  For each regex the greedy
quantifiers are deterministic: the character after a maximal `\d+` run is
never a digit, so shrinking a greedy capture can never help, except in
rule 5 where `\d{2,3}` is resolved by the explicit length test. -/

structure Captures where
  seasonStr : Option (List Char)
  episodeStr : List Char
deriving DecidableEq

/-- Rule 1: `(?i)S(\d+)\s*-\s*(\d+)` at one start position. -/
def matchP1At : List Char → Option Captures
  | [] => none
  | c :: rest =>
    if isSChar c then
      let ds := rest.takeWhile Char.isDigit
      if ds.isEmpty then none
      else
        match (rest.dropWhile Char.isDigit).dropWhile isSpaceRE with
        | [] => none
        | d :: r3 =>
          if d = '-' then
            let es := (r3.dropWhile isSpaceRE).takeWhile Char.isDigit
            if es.isEmpty then none else some ⟨some ds, es⟩
          else none
    else none

/-- Rule 2: `(?i)S(\d+)(?:\s|E)(\d+)` at one start position. -/
def matchP2At : List Char → Option Captures
  | [] => none
  | c :: rest =>
    if isSChar c then
      let ds := rest.takeWhile Char.isDigit
      if ds.isEmpty then none
      else
        match rest.dropWhile Char.isDigit with
        | [] => none
        | d :: r2 =>
          if isSpaceRE d || isEChar d then
            let es := r2.takeWhile Char.isDigit
            if es.isEmpty then none else some ⟨some ds, es⟩
          else none
    else none

/-- Rule 3: `(?i)E(\d+)` at one start position. -/
def matchP3At : List Char → Option Captures
  | [] => none
  | c :: rest =>
    if isEChar c then
      let es := rest.takeWhile Char.isDigit
      if es.isEmpty then none else some ⟨none, es⟩
    else none

/-- Rule 4: `\s-\s\(?(\d+)\)?` at one start position.  When the optional
`(` is present but not followed by a digit, backtracking to the empty
alternative still demands a digit at the `(`, so the position fails. -/
def matchP4At : List Char → Option Captures
  | [] => none
  | c :: rest =>
    if isSpaceRE c then
      match rest with
      | d1 :: d2 :: r2 =>
        if d1 = '-' && isSpaceRE d2 then
          match r2 with
          | [] => none
          | e1 :: r3 =>
            if e1 = '(' then
              let es := r3.takeWhile Char.isDigit
              if es.isEmpty then none else some ⟨none, es⟩
            else
              let es := r2.takeWhile Char.isDigit
              if es.isEmpty then none else some ⟨none, es⟩
        else none
      | _ => none
    else none

/-- Rule 5: `\s(\d{2,3})(?:\s|$)` at one start position.  A maximal digit
run of length other than 2 or 3 cannot match: with four or more digits
both the 3- and the 2-digit attempt are followed by a digit. -/
def matchP5At : List Char → Option Captures
  | [] => none
  | c :: rest =>
    if isSpaceRE c then
      let ds := rest.takeWhile Char.isDigit
      let boundary : Bool :=
        match rest.dropWhile Char.isDigit with
        | [] => true
        | d :: _ => isSpaceRE d
      if (ds.length = 2 || ds.length = 3) && boundary then some ⟨none, ds⟩ else none
    else none

/-- Leftmost-first search: try every start position from the left. -/
def findFirst (m : List Char → Option Captures) : List Char → Option Captures
  | [] => none
  | l@(_ :: rest) =>
    match m l with
    | some r => some r
    | none => findFirst m rest

inductive PatternId where
  | p1 | p2 | p3 | p4 | p5
deriving DecidableEq

/-- The ordered pattern table `episodePatterns` of the source. -/
def episodePatterns : List PatternId := [.p1, .p2, .p3, .p4, .p5]

/-- `pattern.regex.FindStringSubmatch`, with the capture groups. -/
def findSubmatch : PatternId → List Char → Option Captures
  | .p1, s => findFirst matchP1At s
  | .p2, s => findFirst matchP2At s
  | .p3, s => findFirst matchP3At s
  | .p4, s => findFirst matchP4At s
  | .p5, s => findFirst matchP5At s

/-! ## filepath.Ext / strings.TrimSuffix (Linux separator) -/

/-- `filepath.Ext`: the suffix beginning at the final dot in the final
path element; empty if there is no dot. -/
def goExt (f : List Char) : List Char :=
  match f.reverse.dropWhile (fun c => !(c = '.' || c = '/')) with
  | [] => []
  | d :: _ =>
    if d = '.' then '.' :: (f.reverse.takeWhile fun c => !(c = '.' || c = '/')).reverse else []

/-- `strings.TrimSuffix`. -/
def goTrimSuffix (s suffix : List Char) : List Char :=
  if suffix.isSuffixOf s then s.take (s.length - suffix.length) else s

/-- `strings.TrimSuffix(filename, filepath.Ext(filename))`. -/
def stripExtension (f : List Char) : List Char := goTrimSuffix f (goExt f)

/-! ## extractSeasonAndEpisode -/

/-- The season fallback of the loop body: season defaults to 1 unless the
season capture parses to a positive integer. -/
def seasonFromCapture (caps : Captures) : Int :=
  match caps.seasonStr with
  | none => 1
  | some ss =>
    match atoiDigits ss with
    | none => 1
    | some v => if v > 0 then v else 1

/-- The `for _, pattern := range episodePatterns` loop with its
`continue` on parse failure or zero episode. -/
def extractLoop (s : List Char) : List PatternId → Int × Int
  | [] => (1, 0)
  | p :: ps =>
    match findSubmatch p s with
    | none => extractLoop s ps
    | some caps =>
      match atoiDigits caps.episodeStr with
      | none => extractLoop s ps
      | some ep => if ep = 0 then extractLoop s ps else (seasonFromCapture caps, ep)

def extractSeasonAndEpisode (filename : String) : Int × Int :=
  extractLoop (stripExtension filename.data) episodePatterns

example : extractSeasonAndEpisode "Show S2 - 03.mkv" = (2, 3) := by decide
example : extractSeasonAndEpisode "Show S01E12.ass" = (1, 12) := by decide
example : extractSeasonAndEpisode "Show E09.mp4" = (1, 9) := by decide
example : extractSeasonAndEpisode "Show 021.srt" = (1, 21) := by decide
example : extractSeasonAndEpisode "Show Finale.mkv" = (1, 0) := by decide

/-! ## C2: the cascade returns the first rule with a positive episode -/

/-- Outcome of a single rule, phrased as the specification words it:
the rule yields a result exactly when its episode capture parses to an
integer greater than zero. -/
def ruleOutcome (s : List Char) (p : PatternId) : Option (Int × Int) :=
  (findSubmatch p s).bind fun caps =>
    (atoiDigits caps.episodeStr).bind fun ep =>
      if ep > 0 then some (seasonFromCapture caps, ep) else none

theorem atoiDigits_nonneg {ds : List Char} {v : Int} (h : atoiDigits ds = some v) : 0 ≤ v := by
  unfold atoiDigits at h
  split at h
  · exact absurd h (by simp)
  · split at h
    · split at h
      · cases h; exact Int.ofNat_nonneg _
      · exact absurd h (by simp)
    · exact absurd h (by simp)

theorem extractLoop_eq_findSome (s : List Char) (ps : List PatternId) :
    extractLoop s ps = (ps.findSome? (ruleOutcome s)).getD (1, 0) := by
  induction ps with
  | nil => rfl
  | cons p ps ih =>
    unfold extractLoop ruleOutcome
    rw [List.findSome?_cons]
    cases hf : findSubmatch p s with
    | none => simpa [hf, ruleOutcome] using ih
    | some caps =>
      cases ha : atoiDigits caps.episodeStr with
      | none => simpa [hf, ha, ruleOutcome] using ih
      | some ep =>
        by_cases hz : ep = 0
        · simpa [hf, ha, hz, ruleOutcome] using ih
        · have hpos : ep > 0 := lt_of_le_of_ne (atoiDigits_nonneg ha) (Ne.symm hz)
          simp [hf, ha, hz, hpos]

/-- C2: for every filename, extraction evaluates the five pattern rules in
their fixed order and returns the season/episode of the first rule whose
episode capture parses to a positive integer; a rule whose capture fails
to parse or parses to zero is skipped; if no rule yields a positive
episode the result is (season = 1, episode = 0). -/
theorem c2_first_positive_rule_wins (filename : String) :
    extractSeasonAndEpisode filename =
      (episodePatterns.findSome? (ruleOutcome (stripExtension filename.data))).getD (1, 0) :=
  extractLoop_eq_findSome _ _

/-! ## Helper lemmas on takeWhile / dropWhile and digit characters -/

theorem takeWhile_append_all {q : Char → Bool} {xs ys : List Char} (h : ∀ x ∈ xs, q x = true) :
    (xs ++ ys).takeWhile q = xs ++ ys.takeWhile q := by
  induction xs with
  | nil => rfl
  | cons a l ih =>
    have h1 := h a (List.mem_cons_self a l)
    have h2 := ih fun x hx => h x (List.mem_cons_of_mem _ hx)
    simp [List.takeWhile_cons, h1, h2]

theorem dropWhile_append_all {q : Char → Bool} {xs ys : List Char} (h : ∀ x ∈ xs, q x = true) :
    (xs ++ ys).dropWhile q = ys.dropWhile q := by
  induction xs with
  | nil => rfl
  | cons a l ih =>
    simp only [List.cons_append, List.dropWhile_cons, h a (List.mem_cons_self a l), if_true]
    exact ih fun x hx => h x (List.mem_cons_of_mem _ hx)

theorem takeWhile_all {q : Char → Bool} {xs : List Char} (h : ∀ x ∈ xs, q x = true) :
    xs.takeWhile q = xs := by
  induction xs with
  | nil => rfl
  | cons a l ih =>
    have h1 := h a (List.mem_cons_self a l)
    simp [List.takeWhile_cons, h1, ih fun x hx => h x (List.mem_cons_of_mem _ hx)]

theorem dropWhile_all {q : Char → Bool} {xs : List Char} (h : ∀ x ∈ xs, q x = true) :
    xs.dropWhile q = [] := by
  induction xs with
  | nil => rfl
  | cons a l ih =>
    have h1 := h a (List.mem_cons_self a l)
    simp [List.dropWhile_cons, h1, ih fun x hx => h x (List.mem_cons_of_mem _ hx)]

theorem isSChar_false_of_digit {c : Char} (h : c.isDigit = true) : isSChar c = false := by
  simp only [isSChar, Bool.or_eq_false_iff, decide_eq_false_iff_not]
  refine ⟨⟨?_, ?_⟩, ?_⟩ <;> rintro rfl <;> exact absurd h (by decide)

theorem isEChar_false_of_digit {c : Char} (h : c.isDigit = true) : isEChar c = false := by
  simp only [isEChar, Bool.or_eq_false_iff, decide_eq_false_iff_not]
  refine ⟨?_, ?_⟩ <;> rintro rfl <;> exact absurd h (by decide)

theorem ne_dash_of_digit {c : Char} (h : c.isDigit = true) : c ≠ '-' := by
  rintro rfl; exact absurd h (by decide)

theorem digit_le {c : Char} (h : c.isDigit = true) : c.toNat - 48 ≤ 9 := by
  simp [Char.isDigit] at h
  obtain ⟨h1, h2⟩ := h
  have h2' : c.val.toNat ≤ 57 := h2
  show c.val.toNat - 48 ≤ 9
  omega

theorem digitsVal_foldl_lt (ds : List Char) (h : ∀ c ∈ ds, c.isDigit = true) :
    ∀ a : Nat, ds.foldl (fun a c => 10 * a + (c.toNat - 48)) a < (a + 1) * 10 ^ ds.length := by
  induction ds with
  | nil =>
    intro a
    simp only [List.foldl_nil, List.length_nil, pow_zero, mul_one]
    exact Nat.lt_succ_self a
  | cons c rest ih =>
    intro a
    have hc : c.toNat - 48 ≤ 9 := digit_le (h c (List.mem_cons_self c rest))
    have hrec := ih (fun x hx => h x (List.mem_cons_of_mem _ hx)) (10 * a + (c.toNat - 48))
    simp only [List.foldl_cons, List.length_cons]
    calc rest.foldl (fun a c => 10 * a + (c.toNat - 48)) (10 * a + (c.toNat - 48))
        < (10 * a + (c.toNat - 48) + 1) * 10 ^ rest.length := hrec
      _ ≤ ((a + 1) * 10) * 10 ^ rest.length := by
          apply Nat.mul_le_mul_right
          omega
      _ = (a + 1) * 10 ^ (rest.length + 1) := by ring

theorem digitsVal_lt (ds : List Char) (h : ∀ c ∈ ds, c.isDigit = true) :
    digitsVal ds < 10 ^ ds.length := by
  have := digitsVal_foldl_lt ds h 0
  simpa [digitsVal] using this

/-! ## C7: a bare trailing 2–3 digit number before the extension -/

theorem goExt_concat (pre es : List Char) (hes : ∀ c ∈ es, c ≠ '.' ∧ c ≠ '/') :
    goExt (pre ++ '.' :: es) = '.' :: es := by
  have hq : ∀ c ∈ es.reverse, (!(c = '.' || c = '/')) = true := by
    intro c hc
    rcases hes c (List.mem_reverse.mp hc) with ⟨h1, h2⟩
    simp [h1, h2]
  unfold goExt
  have hrev : (pre ++ '.' :: es).reverse = es.reverse ++ '.' :: pre.reverse := by simp
  rw [hrev, takeWhile_append_all hq, dropWhile_append_all hq]
  simp [List.takeWhile_cons, List.dropWhile_cons]

theorem stripExtension_concat (pre es : List Char) (hes : ∀ c ∈ es, c ≠ '.' ∧ c ≠ '/') :
    stripExtension (pre ++ '.' :: es) = pre := by
  unfold stripExtension goTrimSuffix
  rw [goExt_concat pre es hes]
  have hsuf : ('.' :: es).isSuffixOf (pre ++ '.' :: es) = true :=
    List.isSuffixOf_iff_suffix.mpr ⟨pre, rfl⟩
  rw [if_pos hsuf]
  have hlen : (pre ++ '.' :: es).length - ('.' :: es).length = pre.length := by simp
  rw [hlen]
  exact List.take_left pre ('.' :: es)

/-- No character satisfying `cls` is immediately followed by a digit.
Rules 1–3 need a digit right after their S/E marker, so a name with this
property cannot match them. -/
def noClsDigit (cls : Char → Bool) : List Char → Bool
  | [] => true
  | [_] => true
  | c :: d :: rest => (!(cls c) || !(d.isDigit)) && noClsDigit cls (d :: rest)

theorem bandp {a b : Bool} (h : (a && b) = true) : a = true ∧ b = true :=
  Bool.and_eq_true a b ▸ h

theorem noClsDigit_tail {cls : Char → Bool} {c : Char} {l : List Char}
    (h : noClsDigit cls (c :: l) = true) : noClsDigit cls l = true := by
  cases l with
  | nil => rfl
  | cons d rest => exact (bandp h).2

theorem noClsDigit_of_noCls {cls : Char → Bool} {l : List Char}
    (h : ∀ c ∈ l, cls c = false) : noClsDigit cls l = true := by
  induction l with
  | nil => rfl
  | cons c rest ih =>
    cases rest with
    | nil => rfl
    | cons d rest' =>
      have hc : cls c = false := h c (List.mem_cons_self ..)
      have ihr := ih fun x hx => h x (List.mem_cons_of_mem _ hx)
      simp [noClsDigit, hc]
      exact ihr

theorem noClsDigit_append {cls : Char → Bool} {xs ys : List Char}
    (hx : noClsDigit cls xs = true) (hy : noClsDigit cls ys = true)
    (hjoin : ∀ d rest, ys = d :: rest → d.isDigit = false) :
    noClsDigit cls (xs ++ ys) = true := by
  induction xs with
  | nil => simpa using hy
  | cons c xs' ih =>
    have ihr := ih (noClsDigit_tail hx)
    cases xs' with
    | nil =>
      cases ys with
      | nil => rfl
      | cons d rest =>
        have hd : d.isDigit = false := hjoin d rest rfl
        simp [noClsDigit, hd]
        simpa using ihr
    | cons c2 xs'' =>
      have hc : (!(cls c) || !(c2.isDigit)) = true := (bandp hx).1
      simp only [List.cons_append] at ihr ⊢
      simp [noClsDigit, hc]
      exact ihr

theorem findFirst_matchP1At_none {l : List Char} (h : noClsDigit isSChar l = true) :
    findFirst matchP1At l = none := by
  induction l with
  | nil => rfl
  | cons c rest ih =>
    have ihr := ih (noClsDigit_tail h)
    have hhead : matchP1At (c :: rest) = none := by
      unfold matchP1At
      by_cases hs : isSChar c
      · cases rest with
        | nil => simp [hs]
        | cons d r =>
          have hd : d.isDigit = false := by
            have := (bandp h).1
            simpa [hs] using this
          simp [hs, List.takeWhile_cons, hd]
      · simp [hs]
    simp [findFirst, hhead, ihr]

theorem findFirst_matchP2At_none {l : List Char} (h : noClsDigit isSChar l = true) :
    findFirst matchP2At l = none := by
  induction l with
  | nil => rfl
  | cons c rest ih =>
    have ihr := ih (noClsDigit_tail h)
    have hhead : matchP2At (c :: rest) = none := by
      unfold matchP2At
      by_cases hs : isSChar c
      · cases rest with
        | nil => simp [hs]
        | cons d r =>
          have hd : d.isDigit = false := by
            have := (bandp h).1
            simpa [hs] using this
          simp [hs, List.takeWhile_cons, hd]
      · simp [hs]
    simp [findFirst, hhead, ihr]

theorem findFirst_matchP3At_none {l : List Char} (h : noClsDigit isEChar l = true) :
    findFirst matchP3At l = none := by
  induction l with
  | nil => rfl
  | cons c rest ih =>
    have ihr := ih (noClsDigit_tail h)
    have hhead : matchP3At (c :: rest) = none := by
      unfold matchP3At
      by_cases hs : isEChar c
      · cases rest with
        | nil => simp [hs]
        | cons d r =>
          have hd : d.isDigit = false := by
            have := (bandp h).1
            simpa [hs] using this
          simp [hs, List.takeWhile_cons, hd]
      · simp [hs]
    simp [findFirst, hhead, ihr]

theorem findFirst_matchP4At_none {l : List Char} (h : ∀ c ∈ l, c ≠ '-') :
    findFirst matchP4At l = none := by
  induction l with
  | nil => rfl
  | cons c rest ih =>
    have ihr := ih fun x hx => h x (List.mem_cons_of_mem _ hx)
    have hhead : matchP4At (c :: rest) = none := by
      unfold matchP4At
      match rest with
      | [] => simp
      | [d1] => simp
      | d1 :: d2 :: r2 =>
        have hd1 : d1 ≠ '-' := h d1 (by simp)
        simp [hd1]
    simp [findFirst, hhead, ihr]

theorem findFirst_matchP5At_pos (p ds : List Char)
    (hp : ∀ c ∈ p, c.isDigit = false)
    (hds : ∀ c ∈ ds, c.isDigit = true)
    (hlen : ds.length = 2 ∨ ds.length = 3) :
    findFirst matchP5At (p ++ ' ' :: ds) = some ⟨none, ds⟩ := by
  induction p with
  | nil =>
    have htake : ds.takeWhile Char.isDigit = ds := takeWhile_all hds
    have hdrop : ds.dropWhile Char.isDigit = [] := dropWhile_all hds
    have hlen' : (ds.length = 2 || ds.length = 3) = true := by
      rcases hlen with h | h <;> simp [h]
    have hsp : isSpaceRE ' ' = true := by decide
    simp [findFirst, matchP5At, htake, hdrop, hlen', hsp]
  | cons c p' ih =>
    have ihr := ih fun x hx => hp x (List.mem_cons_of_mem _ hx)
    have hhead : matchP5At (c :: (p' ++ ' ' :: ds)) = none := by
      unfold matchP5At
      by_cases hs : isSpaceRE c
      · have htake : (p' ++ ' ' :: ds).takeWhile Char.isDigit = [] := by
          match p' with
          | [] => simp [List.takeWhile_cons]
          | d :: p'' =>
            have : d.isDigit = false := hp d (by simp)
            simp [List.takeWhile_cons, this]
        simp [hs, htake]
      · simp [hs]
    simpa [findFirst, hhead] using ihr

/-- C7: extraction strips the extension before matching (the trailing
number sits immediately before the extension and still matches rule 5's
end-of-name anchor); for a filename `p ++ " " ++ ds ++ "." ++ es` whose
only numeric cue is the bare 2–3 digit number `ds`, extraction yields
season 1 and `ds`'s value as the episode. -/
theorem c7_bare_trailing_number (p ds es : List Char)
    (hpS : noClsDigit isSChar p = true)
    (hpE : noClsDigit isEChar p = true)
    (hpD : ∀ c ∈ p, c.isDigit = false)
    (hpDash : ∀ c ∈ p, c ≠ '-')
    (hds : ∀ c ∈ ds, c.isDigit = true)
    (hlen : ds.length = 2 ∨ ds.length = 3)
    (hpos : 0 < digitsVal ds)
    (hes : ∀ c ∈ es, c ≠ '.' ∧ c ≠ '/') :
    extractSeasonAndEpisode ⟨p ++ ' ' :: ds ++ '.' :: es⟩ = (1, (digitsVal ds : Int)) := by
  have hstrip : stripExtension (p ++ ' ' :: ds ++ '.' :: es) = p ++ ' ' :: ds := by
    have h := stripExtension_concat (p ++ ' ' :: ds) es hes
    rw [List.append_assoc] at h
    simpa using h
  have htailS : noClsDigit isSChar (' ' :: ds) = true := by
    apply noClsDigit_of_noCls
    intro c hc
    rcases List.mem_cons.mp hc with rfl | hc'
    · decide
    · exact isSChar_false_of_digit (hds c hc')
  have htailE : noClsDigit isEChar (' ' :: ds) = true := by
    apply noClsDigit_of_noCls
    intro c hc
    rcases List.mem_cons.mp hc with rfl | hc'
    · decide
    · exact isEChar_false_of_digit (hds c hc')
  have hjoin : ∀ (d : Char) (rest : List Char), ' ' :: ds = d :: rest → d.isDigit = false := by
    intro d rest h
    cases h
    decide
  have h1 : findFirst matchP1At (p ++ ' ' :: ds) = none :=
    findFirst_matchP1At_none (noClsDigit_append hpS htailS hjoin)
  have h2 : findFirst matchP2At (p ++ ' ' :: ds) = none :=
    findFirst_matchP2At_none (noClsDigit_append hpS htailS hjoin)
  have h3 : findFirst matchP3At (p ++ ' ' :: ds) = none :=
    findFirst_matchP3At_none (noClsDigit_append hpE htailE hjoin)
  have h4 : findFirst matchP4At (p ++ ' ' :: ds) = none := by
    apply findFirst_matchP4At_none
    intro c hc
    rcases List.mem_append.mp hc with hcp | hcd
    · exact hpDash c hcp
    · rcases List.mem_cons.mp hcd with rfl | hcd'
      · decide
      · exact ne_dash_of_digit (hds c hcd')
  have h5 : findFirst matchP5At (p ++ ' ' :: ds) = some ⟨none, ds⟩ :=
    findFirst_matchP5At_pos p ds hpD hds hlen
  have hbound : digitsVal ds ≤ 9223372036854775807 := by
    have hlt := digitsVal_lt ds hds
    have : (10 : Nat) ^ ds.length ≤ 1000 := by
      rcases hlen with h | h <;> simp [h]
    omega
  have hne : ds.isEmpty = false := by
    cases ds with
    | nil => rcases hlen with h | h <;> simp at h
    | cons a l => rfl
  have hall : ds.all Char.isDigit = true := List.all_eq_true.mpr hds
  have hatoi : atoiDigits ds = some (digitsVal ds) := by
    simp [atoiDigits, hne, hall, hbound]
  have hz : ¬ ((digitsVal ds : Int) = 0) := by
    simp only [Int.natCast_eq_zero]
    omega
  unfold extractSeasonAndEpisode
  rw [show (String.mk (p ++ ' ' :: ds ++ '.' :: es)).data = p ++ ' ' :: ds ++ '.' :: es from rfl]
  rw [hstrip]
  simp [extractLoop, episodePatterns, findSubmatch, h1, h2, h3, h4, h5, hatoi, hz,
    seasonFromCapture]

/-- C7 witness: the spec's own example filename. -/
theorem c7_witness : extractSeasonAndEpisode "Show 021.srt" = (1, 21) := by
  have h := c7_bare_trailing_number "Show".data "021".data "srt".data
    (by decide) (by decide) (by decide) (by decide) (by decide) (by decide) (by decide)
    (by decide)
  have hstr : ("Show 021.srt" : String) =
      ⟨"Show".data ++ ' ' :: "021".data ++ '.' :: "srt".data⟩ := by decide
  rw [hstr]
  rw [h]
  decide

/-! ## C10: the S/E markers of rules 1–3 are matched case-insensitively

We show that extraction only depends on the image of the filename under
`lowerSE`, which lowercases exactly the two marker letters.  Replacing any
uppercase S/E by its lowercase form leaves that image unchanged. -/

/-- Lowercase the two marker letters, leave everything else alone. -/
def lowerSE (c : Char) : Char := if c = 'S' then 's' else if c = 'E' then 'e' else c

theorem lowerSE_pred (q : Char → Bool) (hS : q 's' = q 'S') (hE : q 'e' = q 'E') (c : Char) :
    q (lowerSE c) = q c := by
  unfold lowerSE
  by_cases h1 : c = 'S'
  · subst h1; simp [hS]
  · by_cases h2 : c = 'E'
    · subst h2; simp [h1, hE]
    · simp [h1, h2]

theorem lowerSE_fixed_of_digit {c : Char} (h : c.isDigit = true) : lowerSE c = c := by
  unfold lowerSE
  by_cases h1 : c = 'S'
  · subst h1; exact absurd h (by decide)
  · by_cases h2 : c = 'E'
    · subst h2; exact absurd h (by decide)
    · simp [h1, h2]

theorem map_id_of_fixed {g : Char → Char} {l : List Char} (h : ∀ x ∈ l, g x = x) :
    l.map g = l := by
  induction l with
  | nil => rfl
  | cons a as ih =>
    rw [List.map_cons, h a (List.mem_cons_self ..), ih fun x hx => h x (List.mem_cons_of_mem _ hx)]

theorem isDigit_comp_lowerSE : (Char.isDigit ∘ lowerSE) = Char.isDigit := by
  funext c
  exact lowerSE_pred Char.isDigit (by decide) (by decide) c

theorem takeWhile_isDigit_map_lowerSE (l : List Char) :
    (l.map lowerSE).takeWhile Char.isDigit = l.takeWhile Char.isDigit := by
  rw [List.takeWhile_map, isDigit_comp_lowerSE]
  exact map_id_of_fixed fun x hx => lowerSE_fixed_of_digit (List.mem_takeWhile_imp hx)

theorem dropWhile_isDigit_map_lowerSE (l : List Char) :
    (l.map lowerSE).dropWhile Char.isDigit = (l.dropWhile Char.isDigit).map lowerSE := by
  rw [List.dropWhile_map, isDigit_comp_lowerSE]

theorem isSpaceRE_comp_lowerSE : (isSpaceRE ∘ lowerSE) = isSpaceRE := by
  funext c
  exact lowerSE_pred isSpaceRE (by decide) (by decide) c

theorem dropWhile_isSpaceRE_map_lowerSE (l : List Char) :
    (l.map lowerSE).dropWhile isSpaceRE = (l.dropWhile isSpaceRE).map lowerSE := by
  rw [List.dropWhile_map, isSpaceRE_comp_lowerSE]

theorem lowerSE_eq_lit {c t : Char} (h1 : t ≠ 's') (h2 : t ≠ 'e') (h3 : t ≠ 'S') (h4 : t ≠ 'E') :
    (lowerSE c = t) ↔ (c = t) := by
  unfold lowerSE
  by_cases hc1 : c = 'S'
  · subst hc1
    simp only [if_pos rfl]
    constructor
    · intro h; exact absurd h.symm h1
    · intro h; exact absurd h.symm h3
  · by_cases hc2 : c = 'E'
    · subst hc2
      rw [if_neg (by decide), if_pos rfl]
      constructor
      · intro h; exact absurd h.symm h2
      · intro h; exact absurd h.symm h4
    · rw [if_neg hc1, if_neg hc2]

theorem matchP1At_map_lowerSE (l : List Char) : matchP1At (l.map lowerSE) = matchP1At l := by
  cases l with
  | nil => rfl
  | cons a as =>
    rw [List.map_cons]
    simp only [matchP1At]
    simp only [lowerSE_pred isSChar (by decide) (by decide) a]
    by_cases hs : isSChar a
    · simp only [hs, if_true, takeWhile_isDigit_map_lowerSE, dropWhile_isDigit_map_lowerSE,
        dropWhile_isSpaceRE_map_lowerSE]
      cases hX : (as.dropWhile Char.isDigit).dropWhile isSpaceRE with
      | nil => simp
      | cons d r3 =>
        simp only [List.map_cons]
        simp only [lowerSE_eq_lit (t := '-') (by decide) (by decide) (by decide) (by decide)]
        by_cases hd : d = '-'
        · simp only [hd, if_pos rfl, dropWhile_isSpaceRE_map_lowerSE,
            takeWhile_isDigit_map_lowerSE]
        · simp [hd]
    · simp [hs]

theorem matchP2At_map_lowerSE (l : List Char) : matchP2At (l.map lowerSE) = matchP2At l := by
  cases l with
  | nil => rfl
  | cons a as =>
    rw [List.map_cons]
    simp only [matchP2At]
    simp only [lowerSE_pred isSChar (by decide) (by decide) a]
    by_cases hs : isSChar a
    · simp only [hs, if_true, takeWhile_isDigit_map_lowerSE, dropWhile_isDigit_map_lowerSE]
      cases hX : as.dropWhile Char.isDigit with
      | nil => simp
      | cons d r2 =>
        simp only [List.map_cons]
        simp only [lowerSE_pred isSpaceRE (by decide) (by decide) d,
          lowerSE_pred isEChar (by decide) (by decide) d]
        by_cases hd : (isSpaceRE d || isEChar d) = true
        · simp only [hd, if_true, takeWhile_isDigit_map_lowerSE]
        · simp [hd]
    · simp [hs]

theorem matchP3At_map_lowerSE (l : List Char) : matchP3At (l.map lowerSE) = matchP3At l := by
  cases l with
  | nil => rfl
  | cons a as =>
    rw [List.map_cons]
    simp only [matchP3At]
    simp only [lowerSE_pred isEChar (by decide) (by decide) a]
    by_cases hs : isEChar a
    · simp only [hs, if_true, takeWhile_isDigit_map_lowerSE]
    · simp [hs]

theorem matchP4At_map_lowerSE (l : List Char) : matchP4At (l.map lowerSE) = matchP4At l := by
  cases l with
  | nil => rfl
  | cons a as =>
    rw [List.map_cons]
    simp only [matchP4At]
    simp only [lowerSE_pred isSpaceRE (by decide) (by decide) a]
    by_cases hs : isSpaceRE a
    · cases as with
      | nil => simp
      | cons d1 rest1 =>
        cases rest1 with
        | nil => simp
        | cons d2 r2 =>
          simp only [List.map_cons]
          simp only [lowerSE_eq_lit (t := '-') (by decide) (by decide) (by decide) (by decide),
            lowerSE_pred isSpaceRE (by decide) (by decide) d2]
          by_cases hd : (d1 = '-' && isSpaceRE d2) = true
          · simp only [hd, if_true]
            cases r2 with
            | nil => simp
            | cons e1 r3 =>
              simp only [List.map_cons]
              simp only [lowerSE_eq_lit (t := '(') (by decide) (by decide) (by decide) (by decide)]
              by_cases he : e1 = '('
              · subst he
                simp [takeWhile_isDigit_map_lowerSE, show lowerSE '(' = '(' from by decide]
              · simp only [he, if_false,
                  show (lowerSE e1 :: r3.map lowerSE) = (e1 :: r3).map lowerSE from rfl,
                  takeWhile_isDigit_map_lowerSE]
          · simp [hd]
    · simp [hs]

theorem matchP5At_map_lowerSE (l : List Char) : matchP5At (l.map lowerSE) = matchP5At l := by
  cases l with
  | nil => rfl
  | cons a as =>
    rw [List.map_cons]
    simp only [matchP5At]
    simp only [lowerSE_pred isSpaceRE (by decide) (by decide) a]
    by_cases hs : isSpaceRE a
    · simp only [hs, if_true, takeWhile_isDigit_map_lowerSE, dropWhile_isDigit_map_lowerSE]
      cases hX : as.dropWhile Char.isDigit with
      | nil => simp
      | cons d r =>
        simp only [List.map_cons]
        simp only [lowerSE_pred isSpaceRE (by decide) (by decide) d]
    · simp [hs]

theorem findFirst_map_lowerSE (m : List Char → Option Captures)
    (hm : ∀ l, m (l.map lowerSE) = m l) (l : List Char) :
    findFirst m (l.map lowerSE) = findFirst m l := by
  induction l with
  | nil => rfl
  | cons a as ih =>
    rw [List.map_cons]
    unfold findFirst
    rw [show (lowerSE a :: as.map lowerSE) = (a :: as).map lowerSE from rfl, hm (a :: as)]
    cases m (a :: as) with
    | some r => rfl
    | none => exact ih

theorem findSubmatch_map_lowerSE (p : PatternId) (l : List Char) :
    findSubmatch p (l.map lowerSE) = findSubmatch p l := by
  cases p
  · exact findFirst_map_lowerSE _ matchP1At_map_lowerSE l
  · exact findFirst_map_lowerSE _ matchP2At_map_lowerSE l
  · exact findFirst_map_lowerSE _ matchP3At_map_lowerSE l
  · exact findFirst_map_lowerSE _ matchP4At_map_lowerSE l
  · exact findFirst_map_lowerSE _ matchP5At_map_lowerSE l

theorem goExt_isSuffix (f : List Char) : (goExt f).isSuffixOf f = true := by
  unfold goExt
  cases hd : f.reverse.dropWhile (fun c => !(c = '.' || c = '/')) with
  | nil => exact List.isSuffixOf_iff_suffix.mpr List.nil_suffix
  | cons d t =>
    by_cases hdot : d = '.'
    · subst hdot
      simp only [if_pos rfl]
      apply List.isSuffixOf_iff_suffix.mpr
      refine ⟨t.reverse, ?_⟩
      calc t.reverse ++ '.' :: (f.reverse.takeWhile fun c => !(c = '.' || c = '/')).reverse
          = (('.' :: t).reverse) ++ (f.reverse.takeWhile fun c => !(c = '.' || c = '/')).reverse := by
            simp
        _ = ((f.reverse.takeWhile fun c => !(c = '.' || c = '/')) ++ ('.' :: t)).reverse := by
            rw [List.reverse_append]
        _ = ((f.reverse.takeWhile fun c => !(c = '.' || c = '/')) ++
              (f.reverse.dropWhile fun c => !(c = '.' || c = '/'))).reverse := by rw [hd]
        _ = f.reverse.reverse := by
            rw [List.takeWhile_append_dropWhile (fun c => !(c = '.' || c = '/')) f.reverse]
        _ = f := List.reverse_reverse f
    · simp only [hdot, if_false]
      exact List.isSuffixOf_iff_suffix.mpr List.nil_suffix

theorem stripExtension_eq_take (f : List Char) :
    stripExtension f = f.take (f.length - (goExt f).length) := by
  unfold stripExtension goTrimSuffix
  rw [if_pos (goExt_isSuffix f)]

theorem goExt_map_lowerSE (l : List Char) : goExt (l.map lowerSE) = (goExt l).map lowerSE := by
  unfold goExt
  have hcomp : ((fun c => !(c = '.' || c = '/')) ∘ lowerSE) = fun c => !(c = '.' || c = '/') := by
    funext c
    exact lowerSE_pred (fun c => !(c = '.' || c = '/')) (by decide) (by decide) c
  rw [← List.map_reverse, List.dropWhile_map, List.takeWhile_map, hcomp]
  cases hd : l.reverse.dropWhile (fun c => !(c = '.' || c = '/')) with
  | nil => rfl
  | cons d t =>
    rw [List.map_cons]
    simp only [lowerSE_eq_lit (t := '.') (by decide) (by decide) (by decide) (by decide)]
    by_cases hdot : d = '.'
    · simp only [hdot, if_pos rfl, List.map_cons, List.map_reverse]
      simp [show lowerSE '.' = '.' from by decide]
    · simp [hdot]

theorem stripExtension_map_lowerSE (l : List Char) :
    stripExtension (l.map lowerSE) = (stripExtension l).map lowerSE := by
  rw [stripExtension_eq_take, stripExtension_eq_take, goExt_map_lowerSE]
  simp [List.map_take]

theorem extractLoop_map_lowerSE (l : List Char) (ps : List PatternId) :
    extractLoop (l.map lowerSE) ps = extractLoop l ps := by
  induction ps with
  | nil => rfl
  | cons p ps ih =>
    cases hf : findSubmatch p l with
    | none =>
      simp only [extractLoop, findSubmatch_map_lowerSE, hf]
      exact ih
    | some caps =>
      cases ha : atoiDigits caps.episodeStr with
      | none =>
        simp only [extractLoop, findSubmatch_map_lowerSE, hf, ha]
        exact ih
      | some ep =>
        by_cases hz : ep = 0
        · simp only [extractLoop, findSubmatch_map_lowerSE, hf, ha, hz, if_true]
          exact ih
        · simp [extractLoop, findSubmatch_map_lowerSE, hf, ha, hz]

/-- C10: the S/E season and episode markers are matched case-insensitively:
any two filenames that agree after lowercasing the letters 'S' and 'E'
(in particular a filename and the same filename with an uppercase marker
replaced by its lowercase form) extract to the same (season, episode). -/
theorem c10_markers_case_insensitive (f g : String)
    (h : f.data.map lowerSE = g.data.map lowerSE) :
    extractSeasonAndEpisode f = extractSeasonAndEpisode g := by
  unfold extractSeasonAndEpisode
  have hf : extractLoop (stripExtension (f.data.map lowerSE)) episodePatterns =
      extractLoop (stripExtension f.data) episodePatterns := by
    rw [stripExtension_map_lowerSE]
    exact extractLoop_map_lowerSE _ _
  have hg : extractLoop (stripExtension (g.data.map lowerSE)) episodePatterns =
      extractLoop (stripExtension g.data) episodePatterns := by
    rw [stripExtension_map_lowerSE]
    exact extractLoop_map_lowerSE _ _
  rw [← hf, ← hg, h]

/-- C10 witness: the three example pairs of the claim, both forms agreeing,
with the common value computed for the uppercase forms. -/
theorem c10_witness :
    (extractSeasonAndEpisode "show s2 - 03" = extractSeasonAndEpisode "show S2 - 03" ∧
      extractSeasonAndEpisode "show S2 - 03" = (2, 3)) ∧
    (extractSeasonAndEpisode "show s01e12" = extractSeasonAndEpisode "show S01E12" ∧
      extractSeasonAndEpisode "show S01E12" = (1, 12)) ∧
    (extractSeasonAndEpisode "show e09" = extractSeasonAndEpisode "show E09" ∧
      extractSeasonAndEpisode "show E09" = (1, 9)) :=
  ⟨⟨c10_markers_case_insensitive _ _ (by decide), by decide⟩,
    ⟨c10_markers_case_insensitive _ _ (by decide), by decide⟩,
    ⟨c10_markers_case_insensitive _ _ (by decide), by decide⟩⟩

/-! ## Data model: FileInfo, FilePair, and the pairing engine -/

structure FileInfo where
  path : String
  season : Int
  episode : Int
  extension : String
deriving DecidableEq

structure FilePair where
  video : FileInfo
  subtitle : FileInfo
deriving DecidableEq

/-- The derived match key `subtitle.Season*1000 + subtitle.Episode`. -/
def matchKey (f : FileInfo) : Int := f.season * 1000 + f.episode

/-! Go's `map[int]FileInfo` modelled as an association list with pairwise
distinct keys: assignment replaces in place or appends, deletion removes
the key's entry, and the trailing range loop iterates in list order (a
deterministic stand-in for Go's unspecified map order; no claim below
depends on that order). -/

def mapInsert : List (Int × FileInfo) → Int → FileInfo → List (Int × FileInfo)
  | [], k, v => [(k, v)]
  | e :: rest, k, v => if e.1 = k then (k, v) :: rest else e :: mapInsert rest k v

def mapLookup : List (Int × FileInfo) → Int → Option FileInfo
  | [], _ => none
  | e :: rest, k => if e.1 = k then some e.2 else mapLookup rest k

def mapDelete : List (Int × FileInfo) → Int → List (Int × FileInfo)
  | [], _ => []
  | e :: rest, k => if e.1 = k then rest else e :: mapDelete rest k

def mapKeys (m : List (Int × FileInfo)) : List Int := m.map Prod.fst

/-- The first loop of `createFilePairs`: `subtitleMap[key] = subtitle`. -/
def buildSubtitleMap (subtitleFiles : List FileInfo) : List (Int × FileInfo) :=
  subtitleFiles.foldl (fun m s => mapInsert m (matchKey s) s) []

/-- The second loop of `createFilePairs`: match each video against the
subtitle map, consuming matched keys; returns (pairs, unmatched videos,
remaining map). -/
def pairLoop : List FileInfo → List (Int × FileInfo) →
    List FilePair × List FileInfo × List (Int × FileInfo)
  | [], m => ([], [], m)
  | v :: vs, m =>
    match mapLookup m (matchKey v) with
    | some s =>
      let r := pairLoop vs (mapDelete m (matchKey v))
      (⟨v, s⟩ :: r.1, r.2.1, r.2.2)
    | none =>
      let r := pairLoop vs m
      (r.1, v :: r.2.1, r.2.2)

def createFilePairs (videoFiles subtitleFiles : List FileInfo) :
    List FilePair × List FileInfo :=
  let r := pairLoop videoFiles (buildSubtitleMap subtitleFiles)
  (r.1, r.2.1 ++ r.2.2.map Prod.snd)

/-- C3 counterexample: one matching video/subtitle pair.  The pair list
has length 1 and the unmatched list length 0, but |media| + |companion|
is 2, so the claimed count equation |pairs| + |unmatched| = |media| +
|companion| fails (a pair consumes two files but counts one). -/
theorem c3_counterexample :
    ¬ ((createFilePairs [⟨"/a/ep1.mkv", 1, 1, ".mkv"⟩] [⟨"/a/ep1.srt", 1, 1, ".srt"⟩]).1.length +
        (createFilePairs [⟨"/a/ep1.mkv", 1, 1, ".mkv"⟩] [⟨"/a/ep1.srt", 1, 1, ".srt"⟩]).2.length =
        1 + 1) := by decide

/-! ## Association-list lemmas for the subtitle map -/

theorem mem_mapInsert {m : List (Int × FileInfo)} {k : Int} {v : FileInfo} {e : Int × FileInfo}
    (h : e ∈ mapInsert m k v) : e = (k, v) ∨ e ∈ m := by
  induction m with
  | nil => simpa [mapInsert] using h
  | cons a rest ih =>
    unfold mapInsert at h
    by_cases hk : a.1 = k
    · rw [if_pos hk] at h
      rcases List.mem_cons.mp h with h1 | h1
      · exact Or.inl h1
      · exact Or.inr (List.mem_cons_of_mem _ h1)
    · rw [if_neg hk] at h
      rcases List.mem_cons.mp h with h1 | h1
      · exact Or.inr (h1 ▸ List.mem_cons_self ..)
      · rcases ih h1 with h2 | h2
        · exact Or.inl h2
        · exact Or.inr (List.mem_cons_of_mem _ h2)

theorem mapKeys_mapInsert_not_mem {m : List (Int × FileInfo)} {k : Int} {v : FileInfo}
    (h : k ∉ mapKeys m) : mapKeys (mapInsert m k v) = mapKeys m ++ [k] := by
  induction m with
  | nil => rfl
  | cons a rest ih =>
    have hk : a.1 ≠ k := fun hc => h (by simp [mapKeys, hc])
    have hrest : k ∉ mapKeys rest := fun hc => h (by simp [mapKeys] at hc ⊢; exact Or.inr hc)
    unfold mapInsert
    rw [if_neg hk]
    simp only [mapKeys, List.map_cons, List.cons_append]
    rw [show (mapInsert rest k v).map Prod.fst = mapKeys (mapInsert rest k v) from rfl, ih hrest]
    rfl

theorem length_mapInsert_not_mem {m : List (Int × FileInfo)} {k : Int} {v : FileInfo}
    (h : k ∉ mapKeys m) : (mapInsert m k v).length = m.length + 1 := by
  induction m with
  | nil => rfl
  | cons a rest ih =>
    have hk : a.1 ≠ k := fun hc => h (by simp [mapKeys, hc])
    have hrest : k ∉ mapKeys rest := fun hc => h (by simp [mapKeys] at hc ⊢; exact Or.inr hc)
    unfold mapInsert
    rw [if_neg hk]
    simp [ih hrest]

theorem mapKeys_mapInsert_mem {m : List (Int × FileInfo)} {k : Int} {v : FileInfo}
    (h : k ∈ mapKeys m) : mapKeys (mapInsert m k v) = mapKeys m := by
  induction m with
  | nil => simp [mapKeys] at h
  | cons a rest ih =>
    unfold mapInsert
    by_cases ha : a.1 = k
    · rw [if_pos ha]
      simp [mapKeys, ha]
    · rw [if_neg ha]
      have hrest : k ∈ mapKeys rest := by
        rcases (show k = a.1 ∨ k ∈ mapKeys rest by simpa [mapKeys] using h) with h1 | h1
        · exact absurd h1.symm ha
        · exact h1
      simp only [mapKeys, List.map_cons]
      rw [show (mapInsert rest k v).map Prod.fst = mapKeys (mapInsert rest k v) from rfl, ih hrest]
      rfl

theorem keysNodup_mapInsert {m : List (Int × FileInfo)} {k : Int} {v : FileInfo}
    (h : (mapKeys m).Nodup) : (mapKeys (mapInsert m k v)).Nodup := by
  by_cases hk : k ∈ mapKeys m
  · rw [mapKeys_mapInsert_mem hk]
    exact h
  · rw [mapKeys_mapInsert_not_mem hk]
    simp [List.nodup_append, h, hk]

theorem lookup_mem {m : List (Int × FileInfo)} {k : Int} {v : FileInfo}
    (h : mapLookup m k = some v) : (k, v) ∈ m := by
  induction m with
  | nil => simp [mapLookup] at h
  | cons a rest ih =>
    unfold mapLookup at h
    by_cases ha : a.1 = k
    · rw [if_pos ha] at h
      cases h
      have : a = (k, a.2) := by
        rw [← ha]
      rw [← this]
      exact List.mem_cons_self ..
    · rw [if_neg ha] at h
      exact List.mem_cons_of_mem _ (ih h)

theorem lookup_mem_keys {m : List (Int × FileInfo)} {k : Int} {v : FileInfo}
    (h : mapLookup m k = some v) : k ∈ mapKeys m := by
  have := lookup_mem h
  exact List.mem_map.mpr ⟨(k, v), this, rfl⟩

theorem mem_mapDelete {m : List (Int × FileInfo)} {k : Int} {e : Int × FileInfo}
    (h : e ∈ mapDelete m k) : e ∈ m := by
  induction m with
  | nil => exact absurd h (by simp [mapDelete])
  | cons a rest ih =>
    unfold mapDelete at h
    by_cases ha : a.1 = k
    · rw [if_pos ha] at h
      exact List.mem_cons_of_mem _ h
    · rw [if_neg ha] at h
      rcases List.mem_cons.mp h with h1 | h1
      · exact h1 ▸ List.mem_cons_self ..
      · exact List.mem_cons_of_mem _ (ih h1)

theorem length_mapDelete_mem {m : List (Int × FileInfo)} {k : Int}
    (h : k ∈ mapKeys m) : (mapDelete m k).length + 1 = m.length := by
  induction m with
  | nil => simp [mapKeys] at h
  | cons a rest ih =>
    unfold mapDelete
    by_cases ha : a.1 = k
    · rw [if_pos ha]
      rfl
    · rw [if_neg ha]
      have hrest : k ∈ mapKeys rest := by
        rcases (show k = a.1 ∨ k ∈ mapKeys rest by simpa [mapKeys] using h) with h1 | h1
        · exact absurd h1.symm ha
        · exact h1
      simp only [List.length_cons]
      rw [← ih hrest]

theorem mapKeys_mapDelete_sublist (m : List (Int × FileInfo)) (k : Int) :
    (mapKeys (mapDelete m k)).Sublist (mapKeys m) := by
  induction m with
  | nil => simp [mapDelete, mapKeys]
  | cons a rest ih =>
    unfold mapDelete
    by_cases ha : a.1 = k
    · rw [if_pos ha]
      exact List.sublist_cons_of_sublist _ (List.Sublist.refl _)
    · rw [if_neg ha]
      exact List.Sublist.cons₂ _ ih

theorem keysNodup_mapDelete {m : List (Int × FileInfo)} {k : Int}
    (h : (mapKeys m).Nodup) : (mapKeys (mapDelete m k)).Nodup :=
  (mapKeys_mapDelete_sublist m k).nodup h

theorem not_mem_keys_mapDelete {m : List (Int × FileInfo)} {k : Int}
    (h : (mapKeys m).Nodup) : k ∉ mapKeys (mapDelete m k) := by
  induction m with
  | nil => simp [mapDelete, mapKeys]
  | cons a rest ih =>
    unfold mapDelete
    by_cases ha : a.1 = k
    · rw [if_pos ha]
      intro hc
      exact (List.nodup_cons.mp h).1 (ha ▸ hc)
    · rw [if_neg ha]
      intro hc
      rcases (show k = a.1 ∨ k ∈ mapKeys (mapDelete rest k) by simpa [mapKeys] using hc) with
        h1 | h1
      · exact ha h1.symm
      · exact ih (List.nodup_cons.mp h).2 h1

/-! ## buildSubtitleMap lemmas -/

theorem buildSubtitleMap_keysNodup (subs : List FileInfo) :
    (mapKeys (buildSubtitleMap subs)).Nodup := by
  suffices h : ∀ (l : List FileInfo) (m : List (Int × FileInfo)), (mapKeys m).Nodup →
      (mapKeys (l.foldl (fun m s => mapInsert m (matchKey s) s) m)).Nodup by
    exact h subs [] (by simp [mapKeys])
  intro l
  induction l with
  | nil => exact fun m hm => hm
  | cons s rest ih =>
    intro m hm
    exact ih _ (keysNodup_mapInsert hm)

theorem mem_foldl_insert {subs : List FileInfo} {m : List (Int × FileInfo)}
    {e : Int × FileInfo}
    (h : e ∈ subs.foldl (fun m s => mapInsert m (matchKey s) s) m) :
    e ∈ m ∨ (e.1 = matchKey e.2 ∧ e.2 ∈ subs) := by
  induction subs generalizing m with
  | nil => exact Or.inl h
  | cons s rest ih =>
    rcases ih (m := mapInsert m (matchKey s) s) h with h1 | h1
    · rcases mem_mapInsert h1 with h2 | h2
      · right
        rw [h2]
        exact ⟨rfl, List.mem_cons_self ..⟩
      · exact Or.inl h2
    · right
      exact ⟨h1.1, List.mem_cons_of_mem _ h1.2⟩

theorem buildSubtitleMap_mem {subs : List FileInfo} {e : Int × FileInfo}
    (h : e ∈ buildSubtitleMap subs) : e.1 = matchKey e.2 ∧ e.2 ∈ subs := by
  rcases mem_foldl_insert h with h1 | h1
  · simp at h1
  · exact h1

theorem length_foldl_insert (subs : List FileInfo) :
    ∀ m : List (Int × FileInfo), (subs.map matchKey).Nodup →
      (∀ s ∈ subs, matchKey s ∉ mapKeys m) →
      (subs.foldl (fun m s => mapInsert m (matchKey s) s) m).length = m.length + subs.length := by
  induction subs with
  | nil => intro m _ _; rfl
  | cons s rest ih =>
    intro m hnd hdis
    have hs : matchKey s ∉ mapKeys m := hdis s (List.mem_cons_self ..)
    have hnd' : (rest.map matchKey).Nodup := (List.nodup_cons.mp (by simpa using hnd)).2
    have hdis' : ∀ t ∈ rest, matchKey t ∉ mapKeys (mapInsert m (matchKey s) s) := by
      intro t ht
      rw [mapKeys_mapInsert_not_mem hs]
      intro hc
      rcases List.mem_append.mp hc with h1 | h1
      · exact hdis t (List.mem_cons_of_mem _ ht) h1
      · have : matchKey t = matchKey s := by simpa using h1
        have hsm : matchKey s ∉ rest.map matchKey := (List.nodup_cons.mp (by simpa using hnd)).1
        exact hsm (this ▸ List.mem_map_of_mem matchKey ht)
    have := ih (mapInsert m (matchKey s) s) hnd' hdis'
    simp only [List.foldl_cons, List.length_cons]
    rw [this, length_mapInsert_not_mem hs]
    omega

theorem buildSubtitleMap_length {subs : List FileInfo} (h : (subs.map matchKey).Nodup) :
    (buildSubtitleMap subs).length = subs.length := by
  have := length_foldl_insert subs [] h (by simp [mapKeys])
  simpa [buildSubtitleMap] using this

/-! ## The video loop of createFilePairs -/

theorem pairLoop_spec (vs : List FileInfo) :
    ∀ m : List (Int × FileInfo), (mapKeys m).Nodup → (∀ e ∈ m, e.1 = matchKey e.2) →
      (∀ pr ∈ (pairLoop vs m).1,
          matchKey pr.video = matchKey pr.subtitle ∧
          (∃ e ∈ m, e.2 = pr.subtitle) ∧
          matchKey pr.subtitle ∉ mapKeys (pairLoop vs m).2.2) ∧
      (∀ e ∈ (pairLoop vs m).2.2, e ∈ m) ∧
      (∀ u ∈ (pairLoop vs m).2.1, u ∈ vs) ∧
      2 * (pairLoop vs m).1.length + (pairLoop vs m).2.1.length + (pairLoop vs m).2.2.length
        = vs.length + m.length := by
  induction vs with
  | nil =>
    intro m hnd hkv
    refine ⟨?_, ?_, ?_, ?_⟩
    · intro pr hpr
      simp [pairLoop] at hpr
    · intro e he
      simpa [pairLoop] using he
    · intro u hu
      simp [pairLoop] at hu
    · simp [pairLoop]
  | cons v vs ih =>
    intro m hnd hkv
    cases hl : mapLookup m (matchKey v) with
    | some s =>
      have hks : matchKey v ∈ mapKeys m := lookup_mem_keys hl
      have hnd' := keysNodup_mapDelete (k := matchKey v) hnd
      have hkv' : ∀ e ∈ mapDelete m (matchKey v), e.1 = matchKey e.2 :=
        fun e he => hkv e (mem_mapDelete he)
      obtain ⟨ih1, ih2, ih3, ih4⟩ := ih (mapDelete m (matchKey v)) hnd' hkv'
      have hmem : (matchKey v, s) ∈ m := lookup_mem hl
      have hkeyS : matchKey v = matchKey s := hkv _ hmem
      have hres : pairLoop (v :: vs) m =
          (⟨v, s⟩ :: (pairLoop vs (mapDelete m (matchKey v))).1,
            (pairLoop vs (mapDelete m (matchKey v))).2.1,
            (pairLoop vs (mapDelete m (matchKey v))).2.2) := by
        simp [pairLoop, hl]
      rw [hres]
      refine ⟨?_, ?_, ?_, ?_⟩
      · intro pr hpr
        rcases List.mem_cons.mp hpr with hpr0 | hpr'
        · subst hpr0
          refine ⟨hkeyS, ⟨(matchKey v, s), hmem, rfl⟩, ?_⟩
          intro hc
          rcases List.mem_map.mp hc with ⟨e, he, hek⟩
          have hed : e ∈ mapDelete m (matchKey v) := ih2 e he
          have hkm : e.1 ∈ mapKeys (mapDelete m (matchKey v)) := List.mem_map_of_mem _ hed
          rw [hek, ← hkeyS] at hkm
          exact not_mem_keys_mapDelete hnd hkm
        · obtain ⟨ha, hb, hc⟩ := ih1 pr hpr'
          obtain ⟨e, he, hev⟩ := hb
          exact ⟨ha, ⟨e, mem_mapDelete he, hev⟩, hc⟩
      · intro e he
        exact mem_mapDelete (ih2 e he)
      · intro u hu
        exact List.mem_cons_of_mem _ (ih3 u hu)
      · have hdel := length_mapDelete_mem hks
        simp only [List.length_cons]
        omega
    | none =>
      obtain ⟨ih1, ih2, ih3, ih4⟩ := ih m hnd hkv
      have hres : pairLoop (v :: vs) m =
          ((pairLoop vs m).1, v :: (pairLoop vs m).2.1, (pairLoop vs m).2.2) := by
        simp [pairLoop, hl]
      rw [hres]
      refine ⟨?_, ?_, ?_, ?_⟩
      · exact ih1
      · exact ih2
      · intro u hu
        rcases List.mem_cons.mp hu with hu0 | hu'
        · exact hu0 ▸ List.mem_cons_self ..
        · exact List.mem_cons_of_mem _ (ih3 u hu')
      · simp only [List.length_cons]
        omega

/-- C3 amended: every pair's two members have equal derived match keys;
and provided companion files have pairwise distinct match keys and no
companion equals a media file, every companion consumed by a pair is
absent from the unmatched output and the corrected count equation
2·|pairs| + |unmatched| = |media| + |companion| holds. -/
theorem c3_pairing_invariants (videoFiles subtitleFiles : List FileInfo)
    (hkeys : (subtitleFiles.map matchKey).Nodup)
    (hdisj : ∀ s ∈ subtitleFiles, s ∉ videoFiles) :
    (∀ pr ∈ (createFilePairs videoFiles subtitleFiles).1,
        matchKey pr.video = matchKey pr.subtitle ∧
        pr.subtitle ∉ (createFilePairs videoFiles subtitleFiles).2) ∧
    2 * (createFilePairs videoFiles subtitleFiles).1.length +
        (createFilePairs videoFiles subtitleFiles).2.length =
      videoFiles.length + subtitleFiles.length := by
  obtain ⟨h1, h2, h3, h4⟩ := pairLoop_spec videoFiles (buildSubtitleMap subtitleFiles)
    (buildSubtitleMap_keysNodup _) (fun e he => (buildSubtitleMap_mem he).1)
  constructor
  · intro pr hpr
    have hpr' : pr ∈ (pairLoop videoFiles (buildSubtitleMap subtitleFiles)).1 := hpr
    obtain ⟨ha, hb, hc⟩ := h1 pr hpr'
    refine ⟨ha, ?_⟩
    intro hmem
    rcases List.mem_append.mp hmem with hm1 | hm2
    · obtain ⟨e, he, hev⟩ := hb
      have hs : pr.subtitle ∈ subtitleFiles := hev ▸ (buildSubtitleMap_mem he).2
      exact hdisj _ hs (h3 _ hm1)
    · rcases List.mem_map.mp hm2 with ⟨e, he, hev⟩
      have hkv : e.1 = matchKey e.2 := (buildSubtitleMap_mem (h2 e he)).1
      apply hc
      rw [← hev, ← hkv]
      exact List.mem_map_of_mem _ he
  · have hbl := buildSubtitleMap_length hkeys
    have hlen : (createFilePairs videoFiles subtitleFiles).2.length =
        (pairLoop videoFiles (buildSubtitleMap subtitleFiles)).2.1.length +
        (pairLoop videoFiles (buildSubtitleMap subtitleFiles)).2.2.length := by
      simp [createFilePairs]
    have hplen : (createFilePairs videoFiles subtitleFiles).1.length =
        (pairLoop videoFiles (buildSubtitleMap subtitleFiles)).1.length := rfl
    rw [hplen, hlen]
    omega

/-- C3 witness: two videos and one subtitle; one pair forms, one video is
left unmatched, and 2·1 + 1 = 2 + 1. -/
theorem c3_witness :
    2 * (createFilePairs [⟨"/a/e1.mkv", 1, 1, ".mkv"⟩, ⟨"/a/e2.mkv", 1, 2, ".mkv"⟩]
          [⟨"/a/e1.srt", 1, 1, ".srt"⟩]).1.length +
      (createFilePairs [⟨"/a/e1.mkv", 1, 1, ".mkv"⟩, ⟨"/a/e2.mkv", 1, 2, ".mkv"⟩]
          [⟨"/a/e1.srt", 1, 1, ".srt"⟩]).2.length = 2 + 1 :=
  (c3_pairing_invariants
    [⟨"/a/e1.mkv", 1, 1, ".mkv"⟩, ⟨"/a/e2.mkv", 1, 2, ".mkv"⟩]
    [⟨"/a/e1.srt", 1, 1, ".srt"⟩] (by decide) (by decide)).2

/-! ## C9: an earlier duplicate companion is shadowed by the later one -/

theorem mem_mapInsert_inv {m : List (Int × FileInfo)} {k : Int} {v : FileInfo}
    {e : Int × FileInfo} (hnd : (mapKeys m).Nodup) (h : e ∈ mapInsert m k v) :
    e = (k, v) ∨ (e ∈ m ∧ e.1 ≠ k) := by
  induction m with
  | nil =>
    simp only [mapInsert, List.mem_singleton] at h
    exact Or.inl h
  | cons a rest ih =>
    unfold mapInsert at h
    by_cases ha : a.1 = k
    · rw [if_pos ha] at h
      rcases List.mem_cons.mp h with h1 | h1
      · exact Or.inl h1
      · right
        have hknot : a.1 ∉ mapKeys rest := (List.nodup_cons.mp hnd).1
        have he1 : e.1 ∈ mapKeys rest := List.mem_map_of_mem _ h1
        refine ⟨List.mem_cons_of_mem _ h1, fun hc => ?_⟩
        rw [hc, ← ha] at he1
        exact hknot he1
    · rw [if_neg ha] at h
      rcases List.mem_cons.mp h with h1 | h1
      · right
        refine ⟨h1 ▸ List.mem_cons_self .., ?_⟩
        rw [h1]
        exact ha
      · rcases ih (List.nodup_cons.mp hnd).2 h1 with h2 | h2
        · exact Or.inl h2
        · exact Or.inr ⟨List.mem_cons_of_mem _ h2.1, h2.2⟩

theorem keysNodup_foldl_insert (l : List FileInfo) :
    ∀ m : List (Int × FileInfo), (mapKeys m).Nodup →
      (mapKeys (l.foldl (fun m s => mapInsert m (matchKey s) s) m)).Nodup := by
  induction l with
  | nil => exact fun m hm => hm
  | cons s rest ih => exact fun m hm => ih _ (keysNodup_mapInsert hm)

theorem keyCorrect_foldl_insert {l : List FileInfo} {m : List (Int × FileInfo)}
    (hm : ∀ e ∈ m, e.1 = matchKey e.2) :
    ∀ e ∈ l.foldl (fun m s => mapInsert m (matchKey s) s) m, e.1 = matchKey e.2 := by
  intro e he
  rcases mem_foldl_insert he with h1 | h1
  · exact hm e h1
  · exact h1.1

/-- The value written at a key is erased from the map by any later write
of the same key: the earlier duplicate `c` is not a value of the final
subtitle map. -/
theorem shadowed_not_value_of_buildSubtitleMap
    {pre mid post : List FileInfo} {c d : FileInfo}
    (hkey : matchKey d = matchKey c)
    (hdc : d ≠ c)
    (hpost : c ∉ post) :
    ∀ e ∈ buildSubtitleMap (pre ++ c :: mid ++ d :: post), e.2 ≠ c := by
  intro e he hev
  have hstep : buildSubtitleMap (pre ++ c :: mid ++ d :: post) =
      post.foldl (fun m s => mapInsert m (matchKey s) s)
        (mapInsert
          (mid.foldl (fun m s => mapInsert m (matchKey s) s)
            (mapInsert (buildSubtitleMap pre) (matchKey c) c))
          (matchKey d) d) := by
    simp [buildSubtitleMap, List.foldl_append]
  rw [hstep] at he
  have hnd2 : (mapKeys (mid.foldl (fun m s => mapInsert m (matchKey s) s)
      (mapInsert (buildSubtitleMap pre) (matchKey c) c))).Nodup :=
    keysNodup_foldl_insert mid _ (keysNodup_mapInsert (buildSubtitleMap_keysNodup pre))
  have hkc2 : ∀ e ∈ mid.foldl (fun m s => mapInsert m (matchKey s) s)
      (mapInsert (buildSubtitleMap pre) (matchKey c) c), e.1 = matchKey e.2 := by
    apply keyCorrect_foldl_insert
    intro e' he'
    rcases mem_mapInsert he' with h1 | h1
    · rw [h1]
    · exact (buildSubtitleMap_mem h1).1
  rcases mem_foldl_insert he with h1 | h1
  · rcases mem_mapInsert_inv hnd2 h1 with h2 | h2
    · rw [h2] at hev
      exact hdc hev
    · obtain ⟨hin, hne⟩ := h2
      have := hkc2 e hin
      rw [hev] at this
      rw [this, ← hkey] at hne
      exact hne rfl
  · rw [hev] at h1
    exact hpost h1.2

/-- C9: when two or more companion files share a match key, each earlier
duplicate is overwritten in the key mapping and appears in neither the
pairs output nor the unmatched output (the later file `d` wins); stated
for an earlier duplicate `c` that is a distinct file from every other
input file. -/
theorem c9_earlier_duplicate_vanishes (videoFiles pre mid post : List FileInfo)
    (c d : FileInfo)
    (hkey : matchKey d = matchKey c)
    (hdc : d ≠ c)
    (hpost : c ∉ post)
    (hvid : c ∉ videoFiles) :
    c ∉ (createFilePairs videoFiles (pre ++ c :: mid ++ d :: post)).1.map FilePair.subtitle ∧
    c ∉ (createFilePairs videoFiles (pre ++ c :: mid ++ d :: post)).2 := by
  obtain ⟨h1, h2, h3, _⟩ :=
    pairLoop_spec videoFiles (buildSubtitleMap (pre ++ c :: mid ++ d :: post))
      (buildSubtitleMap_keysNodup _) (fun e he => (buildSubtitleMap_mem he).1)
  have hshadow := @shadowed_not_value_of_buildSubtitleMap pre mid post c d hkey hdc hpost
  constructor
  · intro hc
    rcases List.mem_map.mp hc with ⟨pr, hpr, hsub⟩
    obtain ⟨_, ⟨e, he, hev⟩, _⟩ := h1 pr hpr
    exact hshadow e he (hev.trans hsub)
  · intro hc
    rcases List.mem_append.mp hc with hm1 | hm2
    · exact hvid (h3 _ hm1)
    · rcases List.mem_map.mp hm2 with ⟨e, he, hev⟩
      exact hshadow e (h2 e he) hev

/-- C9 witness: two same-key subtitles; the earlier one is in neither
output. -/
theorem c9_witness :
    (⟨"/a/e1a.srt", 1, 1, ".srt"⟩ : FileInfo) ∉
      (createFilePairs [] [⟨"/a/e1a.srt", 1, 1, ".srt"⟩, ⟨"/a/e1b.srt", 1, 1, ".srt"⟩]).1.map
        FilePair.subtitle ∧
    (⟨"/a/e1a.srt", 1, 1, ".srt"⟩ : FileInfo) ∉
      (createFilePairs [] [⟨"/a/e1a.srt", 1, 1, ".srt"⟩, ⟨"/a/e1b.srt", 1, 1, ".srt"⟩]).2 :=
  c9_earlier_duplicate_vanishes [] [] [] [] ⟨"/a/e1a.srt", 1, 1, ".srt"⟩
    ⟨"/a/e1b.srt", 1, 1, ".srt"⟩ (by decide) (by decide) (by decide) (by decide)

/-! ## path/filepath: Clean, Dir, Base, Join (Linux separator, no volume)

`goClean` transcribes Go's `filepath.Clean` with the output buffer held in
reverse and an explicit fuel equal to the input length: every loop
iteration consumes at least one input character, so the fuel never runs
out. -/

/-- The `..` backtracking step: `out.w--`, then keep popping while the
character just removed is not a separator and `out.w > dotdot`. -/
def dotdotPop (dd : Nat) : List Char → List Char
  | [] => []
  | c :: rest => if rest.length > dd ∧ c ≠ '/' then dotdotPop dd rest else rest

/-- `r+1 == n || path[r+1] == '/'`. -/
def isBreakOrEnd : List Char → Bool
  | [] => true
  | c :: _ => c = '/'

/-- `path[r+1] == '.' && (r+2 == n || path[r+2] == '/')`. -/
def isDotBreak : List Char → Bool
  | [] => false
  | c :: rest2 => c = '.' && isBreakOrEnd rest2

def cleanLoop (rooted : Bool) : Nat → List Char → List Char → Nat → List Char
  | _, [], outRev, _ => outRev
  | 0, _ :: _, outRev, _ => outRev
  | fuel + 1, c :: rest, outRev, dotdot =>
    if c = '/' then
      cleanLoop rooted fuel rest outRev dotdot
    else if c = '.' && isBreakOrEnd rest then
      cleanLoop rooted fuel rest outRev dotdot
    else if c = '.' && isDotBreak rest then
      if outRev.length > dotdot then
        cleanLoop rooted fuel rest.tail (dotdotPop dotdot outRev) dotdot
      else if !rooted then
        let outRev2 := '.' :: '.' :: (if outRev.length > 0 then '/' :: outRev else outRev)
        cleanLoop rooted fuel rest.tail outRev2 outRev2.length
      else
        cleanLoop rooted fuel rest.tail outRev dotdot
    else
      let outRev2 :=
        if (rooted && outRev.length ≠ 1) || (!rooted && outRev.length ≠ 0) then '/' :: outRev
        else outRev
      cleanLoop rooted fuel ((c :: rest).dropWhile fun x => x ≠ '/')
        (((c :: rest).takeWhile fun x => x ≠ '/').reverse ++ outRev2) dotdot

def goClean : List Char → List Char
  | [] => ['.']
  | c :: rest =>
    let outRev :=
      if c = '/' then cleanLoop true (rest.length + 1) rest ['/'] 1
      else cleanLoop false (rest.length + 2) (c :: rest) [] 0
    if outRev.isEmpty then ['.'] else outRev.reverse

/-- `filepath.Dir`: everything up to and including the final separator,
cleaned. -/
def goDir (path : List Char) : List Char :=
  goClean ((path.reverse.dropWhile fun c => c ≠ '/').reverse)

/-- `filepath.Base`: strip trailing separators, then take the last
element. -/
def goBase (path : List Char) : List Char :=
  if path.isEmpty then ['.']
  else
    let p1 := (path.reverse.dropWhile fun c => c = '/').reverse
    let p2 := (p1.reverse.takeWhile fun c => c ≠ '/').reverse
    if p2.isEmpty then ['/'] else p2

/-- `filepath.Join` for two elements. -/
def goJoin (a b : List Char) : List Char :=
  if a.isEmpty then
    if b.isEmpty then [] else goClean b
  else goClean (a ++ '/' :: b)

def goDirS (s : String) : String := ⟨goDir s.data⟩

def goBaseS (s : String) : String := ⟨goBase s.data⟩

def goJoinS (a b : String) : String := ⟨goJoin a.data b.data⟩

example : goJoinS "/d" "x.mkv" = "/d/x.mkv" := by decide
example : goDirS "/d/a/x.mkv" = "/d/a" := by decide
example : (⟨goClean "a/b/../c".data⟩ : String) = "a/c" := by decide
example : (⟨goClean "/../a".data⟩ : String) = "/a" := by decide
example : (⟨goClean "./a/".data⟩ : String) = "a" := by decide
example : goBaseS "/d/a.mkv" = "a.mkv" := by decide
example : goDirS "rel.mkv" = "." := by decide

/-! ## fmt.Sprintf helpers -/

def natToCharsAux : Nat → Nat → List Char
  | 0, _ => []
  | fuel + 1, n =>
    if n < 10 then [Char.ofNat (48 + n)]
    else natToCharsAux fuel (n / 10) ++ [Char.ofNat (48 + n % 10)]

/-- Decimal digits of a natural number. -/
def natToChars (n : Nat) : List Char := natToCharsAux (n + 1) n

def intToChars (i : Int) : List Char :=
  if i < 0 then '-' :: natToChars i.natAbs else natToChars i.toNat

/-- `fmt.Sprintf("%02d", ·)` for a Go int: minimum width 2, zero padded
(the sign counts towards the width). -/
def pad2 (i : Int) : String :=
  let s := intToChars i
  if s.length < 2 then ⟨List.replicate (2 - s.length) '0' ++ s⟩ else ⟨s⟩

example : pad2 3 = "03" := by decide
example : pad2 21 = "21" := by decide
example : pad2 123 = "123" := by decide
example : pad2 0 = "00" := by decide

/-! ## buildRenameOperations -/

structure RenameOperation where
  oldPath : String
  newPath : String
deriving DecidableEq

/-- `fmt.Sprintf("%s - S%02dE%02d%s", animeName, season, episode, ext)`. -/
def sprintfNewName (animeName : String) (season episode : Int) (extension : String) : String :=
  animeName ++ " - S" ++ pad2 season ++ "E" ++ pad2 episode ++ extension

def buildRenameOperations : List FilePair → String → List RenameOperation
  | [], _ => []
  | pair :: rest, animeName =>
    { oldPath := pair.video.path,
      newPath := goJoinS (goDirS pair.video.path)
        (sprintfNewName animeName pair.video.season pair.video.episode
          pair.video.extension) } ::
    { oldPath := pair.subtitle.path,
      newPath := goJoinS (goDirS pair.subtitle.path)
        (sprintfNewName animeName pair.subtitle.season pair.subtitle.episode
          pair.subtitle.extension) } ::
    buildRenameOperations rest animeName

/-- C5: the planner produces exactly 2·|pairs| instructions, ordered
pair-by-pair with the media instruction before the companion instruction,
and each instruction's target is the original file's directory joined
with "{title} - S{season:02d}E{episode:02d}{extension}" built from that
file's own tagged fields. -/
theorem c5_build_rename_operations (pairs : List FilePair) (animeName : String) :
    (buildRenameOperations pairs animeName).length = 2 * pairs.length ∧
    ∀ k : Nat,
      (buildRenameOperations pairs animeName).get? (2 * k) =
        (pairs.get? k).map (fun pair =>
          { oldPath := pair.video.path,
            newPath := goJoinS (goDirS pair.video.path)
              (animeName ++ " - S" ++ pad2 pair.video.season ++ "E" ++
                pad2 pair.video.episode ++ pair.video.extension) }) ∧
      (buildRenameOperations pairs animeName).get? (2 * k + 1) =
        (pairs.get? k).map (fun pair =>
          { oldPath := pair.subtitle.path,
            newPath := goJoinS (goDirS pair.subtitle.path)
              (animeName ++ " - S" ++ pad2 pair.subtitle.season ++ "E" ++
                pad2 pair.subtitle.episode ++ pair.subtitle.extension) }) := by
  induction pairs with
  | nil =>
    refine ⟨rfl, fun k => ⟨?_, ?_⟩⟩ <;> simp [buildRenameOperations]
  | cons pair rest ih =>
    obtain ⟨ihlen, ihget⟩ := ih
    refine ⟨?_, ?_⟩
    · simp only [buildRenameOperations, List.length_cons, ihlen]
      omega
    · intro k
      cases k with
      | zero =>
        constructor
        · simp [buildRenameOperations, sprintfNewName]
        · simp [buildRenameOperations, sprintfNewName]
      | succ k' =>
        obtain ⟨ih1, ih2⟩ := ihget k'
        constructor
        · have harith : 2 * (k' + 1) = (2 * k' + 1) + 1 := by omega
          rw [harith]
          simp only [buildRenameOperations, List.get?_cons_succ]
          exact ih1
        · have harith : 2 * (k' + 1) + 1 = (2 * k' + 1 + 1) + 1 := by omega
          rw [harith]
          simp only [buildRenameOperations, List.get?_cons_succ]
          exact ih2

/-! ## Preflight validation

The filesystem is a stat oracle `String → StatR` (`ok` = stat succeeds,
`notExist` = ErrNotExist, `err` = any other stat error); preflight only
reads it.  Issues are one constructor per message of the source. -/

inductive StatR where
  | ok | notExist | err
deriving DecidableEq

inductive Issue where
  | noPairs
  | emptySource
  | emptyTarget (source : String)
  | missingSource (p : String)
  | duplicateTarget (p : String)
  | targetExists (p : String)
  | targetStatFailed (p : String)
deriving DecidableEq

/-- `unicode.IsSpace` on the Latin-1 range (the only whitespace the
claims exercise); `strings.TrimSpace(s) == ""` iff every character is
whitespace. -/
def isGoSpace (c : Char) : Bool :=
  c = ' ' || c = '\t' || c = '\n' || c = '\x0b' || c = '\x0c' || c = '\r' ||
    c = '\x85' || c = '\xa0'

def trimSpaceEmpty (s : String) : Bool := s.data.all isGoSpace

/-- Set insertion for the `map[string]struct{}` path sets. -/
def insertSet (l : List String) (x : String) : List String :=
  if x ∈ l then l else l ++ [x]

/-- The per-operation loop of `preflightRenameOperations`, returning
(issues in order, sourcePaths, targetPaths). -/
def preflightLoop (fsStat : String → StatR) :
    List RenameOperation → List String → List String →
    List Issue × List String × List String
  | [], srcs, tgts => ([], srcs, tgts)
  | op :: rest, srcs, tgts =>
    if trimSpaceEmpty op.oldPath then
      let r := preflightLoop fsStat rest srcs tgts
      (.emptySource :: r.1, r.2)
    else if trimSpaceEmpty op.newPath then
      let r := preflightLoop fsStat rest srcs tgts
      (.emptyTarget op.oldPath :: r.1, r.2)
    else
      let srcs2 := insertSet srcs op.oldPath
      if fsStat op.oldPath ≠ StatR.ok then
        let r := preflightLoop fsStat rest srcs2 tgts
        (.missingSource op.oldPath :: r.1, r.2)
      else if op.oldPath = op.newPath then
        preflightLoop fsStat rest srcs2 tgts
      else if op.newPath ∈ tgts then
        let r := preflightLoop fsStat rest srcs2 tgts
        (.duplicateTarget op.newPath :: r.1, r.2)
      else
        preflightLoop fsStat rest srcs2 (insertSet tgts op.newPath)

/-- The target-collision loop over the collected target paths. -/
def preflightTargets (fsStat : String → StatR) (srcs : List String) :
    List String → List Issue
  | [] => []
  | t :: rest =>
    if t ∈ srcs then preflightTargets fsStat srcs rest
    else
      match fsStat t with
      | .ok => .targetExists t :: preflightTargets fsStat srcs rest
      | .notExist => preflightTargets fsStat srcs rest
      | .err => .targetStatFailed t :: preflightTargets fsStat srcs rest

/-- `preflightRenameOperations`: all recorded issues, in order (the Go
function wraps a nonempty list in a PreflightError). -/
def preflightRenameOperations (fsStat : String → StatR) (operations : List RenameOperation) :
    List Issue :=
  (if operations.isEmpty then [Issue.noPairs] else []) ++
    (preflightLoop fsStat operations [] []).1 ++
    preflightTargets fsStat (preflightLoop fsStat operations [] []).2.1
      (preflightLoop fsStat operations [] []).2.2

/-- An operation that reaches the duplicate-target check and, failing
that, registers its target: nonempty paths, statable source, and a
source different from its target. -/
def reachesTargetCheck (fsStat : String → StatR) (op : RenameOperation) : Prop :=
  trimSpaceEmpty op.oldPath = false ∧ trimSpaceEmpty op.newPath = false ∧
    fsStat op.oldPath = StatR.ok ∧ op.oldPath ≠ op.newPath

instance (fsStat : String → StatR) (op : RenameOperation) :
    Decidable (reachesTargetCheck fsStat op) := by
  unfold reachesTargetCheck
  infer_instance

/-- C4 counterexample: two instructions (each with source ≠ target) share
the target "/d/T.mkv", but the first one's source does not exist, so its
`continue` skips target registration and no duplicate-target issue is
recorded for the second occurrence. -/
theorem c4_counterexample :
    (let fsStat : String → StatR := fun p => if p = "/d/b.srt" then .ok else .notExist
     let ops : List RenameOperation :=
       [⟨"/d/a.mkv", "/d/T.mkv"⟩, ⟨"/d/b.srt", "/d/T.mkv"⟩]
     (∀ op ∈ ops, op.oldPath ≠ op.newPath) ∧
       Issue.duplicateTarget "/d/T.mkv" ∉ preflightRenameOperations fsStat ops) := by
  decide

theorem dup_of_mem_tgts (fsStat : String → StatR) (T : String) :
    ∀ (l : List RenameOperation) (srcs tgts : List String), T ∈ tgts →
      (∃ op ∈ l, reachesTargetCheck fsStat op ∧ op.newPath = T) →
      Issue.duplicateTarget T ∈ (preflightLoop fsStat l srcs tgts).1 := by
  intro l
  induction l with
  | nil =>
    intro srcs tgts _ hex
    simp at hex
  | cons op rest ih =>
    intro srcs tgts hT hex
    unfold preflightLoop
    by_cases h1 : trimSpaceEmpty op.oldPath
    · rw [if_pos h1]
      rcases hex with ⟨w, hw, hwv, hwT⟩
      rcases List.mem_cons.mp hw with rfl | hw'
      · exact absurd h1 (by simp [hwv.1])
      · exact List.mem_cons_of_mem _ (ih srcs tgts hT ⟨w, hw', hwv, hwT⟩)
    · rw [if_neg h1]
      by_cases h2 : trimSpaceEmpty op.newPath
      · rw [if_pos h2]
        rcases hex with ⟨w, hw, hwv, hwT⟩
        rcases List.mem_cons.mp hw with rfl | hw'
        · exact absurd h2 (by simp [hwv.2.1])
        · exact List.mem_cons_of_mem _ (ih srcs tgts hT ⟨w, hw', hwv, hwT⟩)
      · rw [if_neg h2]
        by_cases h3 : fsStat op.oldPath ≠ StatR.ok
        · rw [if_pos h3]
          rcases hex with ⟨w, hw, hwv, hwT⟩
          rcases List.mem_cons.mp hw with rfl | hw'
          · exact absurd hwv.2.2.1 h3
          · exact List.mem_cons_of_mem _ (ih _ tgts hT ⟨w, hw', hwv, hwT⟩)
        · rw [if_neg h3]
          by_cases h4 : op.oldPath = op.newPath
          · rw [if_pos h4]
            rcases hex with ⟨w, hw, hwv, hwT⟩
            rcases List.mem_cons.mp hw with rfl | hw'
            · exact absurd h4 hwv.2.2.2
            · exact ih _ tgts hT ⟨w, hw', hwv, hwT⟩
          · rw [if_neg h4]
            by_cases h5 : op.newPath ∈ tgts
            · rw [if_pos h5]
              rcases hex with ⟨w, hw, hwv, hwT⟩
              rcases List.mem_cons.mp hw with rfl | hw'
              · rw [hwT]
                exact List.mem_cons_self ..
              · exact List.mem_cons_of_mem _ (ih _ tgts hT ⟨w, hw', hwv, hwT⟩)
            · rw [if_neg h5]
              rcases hex with ⟨w, hw, hwv, hwT⟩
              rcases List.mem_cons.mp hw with rfl | hw'
              · exact absurd (hwT ▸ hT) h5
              · refine ih _ (insertSet tgts op.newPath) ?_ ⟨w, hw', hwv, hwT⟩
                unfold insertSet
                by_cases h6 : op.newPath ∈ tgts
                · rw [if_pos h6]; exact hT
                · rw [if_neg h6]; exact List.mem_append_left _ hT

theorem dup_recorded_in_loop (fsStat : String → StatR) (T : String)
    (a b : RenameOperation) (mid post : List RenameOperation)
    (ha : reachesTargetCheck fsStat a) (haT : a.newPath = T)
    (hb : reachesTargetCheck fsStat b) (hbT : b.newPath = T) :
    ∀ (srcs tgts : List String),
      Issue.duplicateTarget T ∈ (preflightLoop fsStat (a :: (mid ++ b :: post)) srcs tgts).1 := by
  intro srcs tgts
  obtain ⟨ha1, ha2, ha3, ha4⟩ := ha
  unfold preflightLoop
  rw [if_neg (by simp [ha1]), if_neg (by simp [ha2]), if_neg (by simp [ha3]),
    if_neg ha4]
  by_cases h5 : a.newPath ∈ tgts
  · rw [if_pos h5]
    rw [haT]
    exact List.mem_cons_self ..
  · rw [if_neg h5]
    apply dup_of_mem_tgts
    · unfold insertSet
      rw [if_neg h5, haT]
      exact List.mem_append_right _ (List.mem_singleton.mpr rfl)
    · exact ⟨b, by simp, hb, hbT⟩

theorem mem_loop_of_mem_suffix (fsStat : String → StatR) (x : Issue) :
    ∀ (pre l : List RenameOperation) (srcs tgts : List String),
      (∀ srcs' tgts' : List String, x ∈ (preflightLoop fsStat l srcs' tgts').1) →
      x ∈ (preflightLoop fsStat (pre ++ l) srcs tgts).1 := by
  intro pre
  induction pre with
  | nil => exact fun l srcs tgts h => h srcs tgts
  | cons op rest ih =>
    intro l srcs tgts h
    rw [List.cons_append]
    unfold preflightLoop
    by_cases h1 : trimSpaceEmpty op.oldPath
    · rw [if_pos h1]
      exact List.mem_cons_of_mem _ (ih l _ _ h)
    · rw [if_neg h1]
      by_cases h2 : trimSpaceEmpty op.newPath
      · rw [if_pos h2]
        exact List.mem_cons_of_mem _ (ih l _ _ h)
      · rw [if_neg h2]
        by_cases h3 : fsStat op.oldPath ≠ StatR.ok
        · rw [if_pos h3]
          exact List.mem_cons_of_mem _ (ih l _ _ h)
        · rw [if_neg h3]
          by_cases h4 : op.oldPath = op.newPath
          · rw [if_pos h4]
            exact ih l _ _ h
          · rw [if_neg h4]
            by_cases h5 : op.newPath ∈ tgts
            · rw [if_pos h5]
              exact List.mem_cons_of_mem _ (ih l _ _ h)
            · rw [if_neg h5]
              exact ih l _ _ h

/-- C4 amended: a duplicate-target issue is recorded for the second and
each later same-target occurrence that itself reaches the duplicate
check, provided the earlier occurrence also reached the check (nonempty
paths, statable source, source ≠ target) and thus registered its target;
an earlier occurrence skipped for an empty path or a missing source does
not register its target, so such a duplicate is not flagged (see the
counterexample). -/
theorem c4_duplicate_target_flagged (fsStat : String → StatR) (T : String)
    (pre mid post : List RenameOperation) (a b : RenameOperation)
    (ha : reachesTargetCheck fsStat a) (haT : a.newPath = T)
    (hb : reachesTargetCheck fsStat b) (hbT : b.newPath = T) :
    Issue.duplicateTarget T ∈
      preflightRenameOperations fsStat (pre ++ a :: mid ++ b :: post) := by
  unfold preflightRenameOperations
  apply List.mem_append_left
  apply List.mem_append_right
  rw [show pre ++ a :: mid ++ b :: post = pre ++ (a :: (mid ++ b :: post)) by simp]
  exact mem_loop_of_mem_suffix fsStat _ pre _ [] []
    (dup_recorded_in_loop fsStat T a b mid post ha haT hb hbT)

/-- C4 witness: both occurrences pass their checks and the duplicate is
flagged. -/
theorem c4_witness :
    Issue.duplicateTarget "/d/T.mkv" ∈
      preflightRenameOperations (fun _ => StatR.ok)
        [⟨"/d/a.mkv", "/d/T.mkv"⟩, ⟨"/d/b.srt", "/d/T.mkv"⟩] :=
  c4_duplicate_target_flagged (fun _ => StatR.ok) "/d/T.mkv" [] [] []
    ⟨"/d/a.mkv", "/d/T.mkv"⟩ ⟨"/d/b.srt", "/d/T.mkv"⟩
    (by refine ⟨?_, ?_, ?_, ?_⟩ <;> decide) rfl
    (by refine ⟨?_, ?_, ?_, ?_⟩ <;> decide) rfl

/-! ## Transactional executor

The filesystem is the list of existing paths (kept duplicate-free by
every theorem below).  The injected `renameFn` is modelled by the
os.Rename-shaped path move together with a fault oracle on (from, to)
pairs — the shape of os.Rename and of the repository's test doubles.  A
successful rename moves the path, overwriting anything at the target; a
failed one (fault, or missing source) changes nothing.  Every invocation
of the rename executor is recorded in an event trace together with the
progress reports the Go code prints. -/

abbrev Fs := List String

inductive Ev where
  | renameCall (src dst : String)
  | noChangeDry (p : String)
  | planDry (src dst : String)
  | noChange (p : String)
  | noFilesNeedRenaming
  | renamed (src dst : String)
deriving DecidableEq

def moveFs (fs : Fs) (src dst : String) : Fs := dst :: (fs.erase src).erase dst

def renameOp (fault : String → String → Bool) (fs : Fs) (src dst : String) : Option Fs :=
  if fault src dst then none
  else if src ∈ fs then some (moveFs fs src dst) else none

structure renameState where
  op : RenameOperation
  tempPath : String
  currentPath : String
deriving DecidableEq

inductive Phase where
  | one | two
deriving DecidableEq

structure RenameExecutionError where
  phase : Phase
  src : String
  dst : String
deriving DecidableEq

inductive RollbackIssue where
  | sourceDisappeared (p : String)
  | renameFailed (src dst : String)
deriving DecidableEq

inductive ExecError where
  | tempPathExhausted (oldPath : String)
  | exec (e : RenameExecutionError)
  | execAndRollback (e : RenameExecutionError) (issues : List RollbackIssue)
deriving DecidableEq

/-- `buildTempPath`: up to 1000 candidates
`.anime-renamer-tmp-{pid}-{index*1000+attempt}-{base}` in the source's
directory; the first one that does not exist wins (stat cannot fail
otherwise in this world). -/
def buildTempPathLoop (pid : Nat) (fs : Fs) (oldPath : String) (index : Nat) :
    Nat → Nat → Option String
  | 0, _ => none
  | fuel + 1, attempt =>
    let candidate := goJoinS (goDirS oldPath)
      ⟨".anime-renamer-tmp-".data ++ natToChars pid ++ '-' ::
        (natToChars (index * 1000 + attempt) ++ '-' :: (goBaseS oldPath).data)⟩
    if candidate ∈ fs then buildTempPathLoop pid fs oldPath index fuel (attempt + 1)
    else some candidate

def buildTempPath (pid : Nat) (fs : Fs) (oldPath : String) (index : Nat) : Option String :=
  buildTempPathLoop pid fs oldPath index 1000 0

/-- The no-op filtering loop: skips source = target instructions
(reporting them) and allocates a temp path per remaining instruction,
with the instruction's position in the full list as `index`. -/
def buildStates (pid : Nat) (fs : Fs) :
    List RenameOperation → Nat → Except ExecError (List renameState) × List Ev
  | [], _ => (.ok [], [])
  | op :: rest, index =>
    if op.oldPath = op.newPath then
      let r := buildStates pid fs rest (index + 1)
      (r.1, Ev.noChange op.oldPath :: r.2)
    else
      match buildTempPath pid fs op.oldPath index with
      | none => (.error (.tempPathExhausted op.oldPath), [])
      | some tmp =>
        let r := buildStates pid fs rest (index + 1)
        (r.1.map fun sts => ⟨op, tmp, op.oldPath⟩ :: sts, r.2)

/-- One phase loop: rename each state's current path to `dstOf` it, in
order, updating the progress record; on failure the whole batch (with
the progress made so far) is handed to the caller for rollback. -/
def phaseRun (ph : Phase) (dstOf : renameState → String) (fault : String → String → Bool) :
    List renameState → Fs → List Ev →
    Fs × List Ev × Except (List renameState × RenameExecutionError) (List renameState)
  | [], fs, tr => (fs, tr, .ok [])
  | st :: rest, fs, tr =>
    let tr2 := tr ++ [Ev.renameCall st.currentPath (dstOf st)]
    match renameOp fault fs st.currentPath (dstOf st) with
    | none => (fs, tr2, .error (st :: rest, ⟨ph, st.currentPath, dstOf st⟩))
    | some fs2 =>
      match phaseRun ph dstOf fault rest fs2 tr2 with
      | (fs3, tr3, .error (sts, e)) =>
        (fs3, tr3, .error ({ st with currentPath := dstOf st } :: sts, e))
      | (fs3, tr3, .ok sts) => (fs3, tr3, .ok ({ st with currentPath := dstOf st } :: sts))

/-- Phase one: current path → temp path. -/
def phase1 (fault : String → String → Bool) :
    List renameState → Fs → List Ev →
    Fs × List Ev × Except (List renameState × RenameExecutionError) (List renameState) :=
  phaseRun Phase.one (fun st => st.tempPath) fault

/-- Phase two: current (temp) path → final target. -/
def phase2 (fault : String → String → Bool) :
    List renameState → Fs → List Ev →
    Fs × List Ev × Except (List renameState × RenameExecutionError) (List renameState) :=
  phaseRun Phase.two (fun st => st.op.newPath) fault

/-- `rollbackRenameStates`, processing the reversed batch (the Go loop
runs indices from the end): skip entries already at their source, report
a vanished current path, move the rest back, collecting sub-failures and
continuing. -/
def rollbackRenameStates (fault : String → String → Bool) :
    List renameState → Fs → List Ev → Fs × List Ev × List RollbackIssue
  | [], fs, tr => (fs, tr, [])
  | st :: rest, fs, tr =>
    if st.currentPath = st.op.oldPath then rollbackRenameStates fault rest fs tr
    else if st.currentPath ∈ fs then
      let tr2 := tr ++ [Ev.renameCall st.currentPath st.op.oldPath]
      match renameOp fault fs st.currentPath st.op.oldPath with
      | none =>
        let r := rollbackRenameStates fault rest fs tr2
        (r.1, r.2.1, .renameFailed st.currentPath st.op.oldPath :: r.2.2)
      | some fs2 => rollbackRenameStates fault rest fs2 tr2
    else
      let r := rollbackRenameStates fault rest fs tr
      (r.1, r.2.1, .sourceDisappeared st.currentPath :: r.2.2)

def executeRenameOperationsWith (operations : List RenameOperation) (dryRun : Bool)
    (fault : String → String → Bool) (pid : Nat) (fs : Fs) :
    Fs × List Ev × Except ExecError Unit :=
  if dryRun then
    (fs,
      operations.map fun op =>
        if op.oldPath = op.newPath then Ev.noChangeDry op.oldPath
        else Ev.planDry op.oldPath op.newPath,
      .ok ())
  else
    match buildStates pid fs operations 0 with
    | (.error e, tr) => (fs, tr, .error e)
    | (.ok states, tr) =>
      if states.isEmpty then (fs, tr ++ [Ev.noFilesNeedRenaming], .ok ())
      else
        match phase1 fault states fs tr with
        | (fs1, tr1, .error (allStates, e)) =>
          let rb := rollbackRenameStates fault allStates.reverse fs1 tr1
          (rb.1, rb.2.1,
            if rb.2.2.isEmpty then .error (.exec e) else .error (.execAndRollback e rb.2.2))
        | (fs1, tr1, .ok states1) =>
          match phase2 fault states1 fs1 tr1 with
          | (fs2, tr2, .error (allStates, e)) =>
            let rb := rollbackRenameStates fault allStates.reverse fs2 tr2
            (rb.1, rb.2.1,
              if rb.2.2.isEmpty then .error (.exec e) else .error (.execAndRollback e rb.2.2))
          | (fs2, tr2, .ok states2) =>
            (fs2, tr2 ++ states2.map fun st => Ev.renamed st.op.oldPath st.op.newPath, .ok ())

/-- C6: dry-run execution never invokes the underlying move operation,
leaves the filesystem unchanged, and returns success. -/
theorem c6_dry_run_is_pure (operations : List RenameOperation)
    (fault : String → String → Bool) (pid : Nat) (fs : Fs) :
    (executeRenameOperationsWith operations true fault pid fs).1 = fs ∧
    (executeRenameOperationsWith operations true fault pid fs).2.2 = .ok () ∧
    ∀ src dst,
      Ev.renameCall src dst ∉ (executeRenameOperationsWith operations true fault pid fs).2.1 := by
  refine ⟨rfl, rfl, ?_⟩
  intro src dst hc
  simp only [executeRenameOperationsWith, if_pos rfl] at hc
  rcases List.mem_map.mp hc with ⟨op, _, hev⟩
  by_cases h : op.oldPath = op.newPath
  · rw [if_pos h] at hev
    cases hev
  · rw [if_neg h] at hev
    cases hev

theorem buildStates_all_noop (pid : Nat) (fs : Fs) :
    ∀ (operations : List RenameOperation) (index : Nat),
      (∀ op ∈ operations, op.oldPath = op.newPath) →
      buildStates pid fs operations index =
        (.ok [], operations.map fun op => Ev.noChange op.oldPath) := by
  intro operations
  induction operations with
  | nil => intro _ _; rfl
  | cons op rest ih =>
    intro index h
    have hop := h op (List.mem_cons_self ..)
    have := ih (index + 1) fun x hx => h x (List.mem_cons_of_mem _ hx)
    simp [buildStates, hop, this]

/-- C8: a live run on a batch of pure no-op instructions performs no
filesystem mutation, never invokes the move operation, returns success,
and creates no transactional state at all. -/
theorem c8_noop_batch_is_pure (operations : List RenameOperation)
    (fault : String → String → Bool) (pid : Nat) (fs : Fs)
    (h : ∀ op ∈ operations, op.oldPath = op.newPath) :
    (executeRenameOperationsWith operations false fault pid fs).1 = fs ∧
    (executeRenameOperationsWith operations false fault pid fs).2.2 = .ok () ∧
    (∀ src dst,
      Ev.renameCall src dst ∉ (executeRenameOperationsWith operations false fault pid fs).2.1) ∧
    (buildStates pid fs operations 0).1 = .ok [] := by
  have hb := buildStates_all_noop pid fs operations 0 h
  have hrun : executeRenameOperationsWith operations false fault pid fs =
      (fs, (operations.map fun op => Ev.noChange op.oldPath) ++ [Ev.noFilesNeedRenaming],
        .ok ()) := by
    simp [executeRenameOperationsWith, hb]
  refine ⟨by rw [hrun], by rw [hrun], ?_, by rw [hb]⟩
  intro src dst hc
  rw [hrun] at hc
  rcases List.mem_append.mp hc with h1 | h1
  · rcases List.mem_map.mp h1 with ⟨op, _, hev⟩
    cases hev
  · rcases List.mem_singleton.mp h1 with h2
    cases h2

/-- C8 witness: one already-correctly-named instruction. -/
theorem c8_witness :
    (executeRenameOperationsWith [⟨"/d/Anime - S01E01.mkv", "/d/Anime - S01E01.mkv"⟩] false
        (fun _ _ => false) 42 ["/d/Anime - S01E01.mkv"]).1 = ["/d/Anime - S01E01.mkv"] ∧
    (executeRenameOperationsWith [⟨"/d/Anime - S01E01.mkv", "/d/Anime - S01E01.mkv"⟩] false
        (fun _ _ => false) 42 ["/d/Anime - S01E01.mkv"]).2.2 = .ok () := by
  have h := c8_noop_batch_is_pure [⟨"/d/Anime - S01E01.mkv", "/d/Anime - S01E01.mkv"⟩]
    (fun _ _ => false) 42 ["/d/Anime - S01E01.mkv"] (by decide)
  exact ⟨h.1, h.2.1⟩

instance : DecidableEq (Except ExecError Unit) := fun a b =>
  match a, b with
  | .ok x, .ok y =>
    if h : x = y then .isTrue (congrArg Except.ok h) else .isFalse fun hc => h (Except.ok.inj hc)
  | .error x, .error y =>
    if h : x = y then .isTrue (congrArg Except.error h)
    else .isFalse fun hc => h (Except.error.inj hc)
  | .ok _, .error _ => .isFalse fun hc => Except.noConfusion hc
  | .error _, .ok _ => .isFalse fun hc => Except.noConfusion hc

/-- C1 counterexample: two instructions where the first target equals the
second source ("/d/b").  Phase two fails on the second instruction and
every rollback rename succeeds (the error carries no rollback issues),
yet afterwards the second instruction's source path "/d/b" holds no file:
rolling the second file back to "/d/b" overwrote the first file, which
was then moved on to "/d/a". -/
theorem c1_counterexample :
    (∀ op ∈ ([⟨"/d/a", "/d/b"⟩, ⟨"/d/b", "/d/c"⟩] : List RenameOperation),
      op.oldPath ≠ op.newPath) ∧
    (executeRenameOperationsWith [⟨"/d/a", "/d/b"⟩, ⟨"/d/b", "/d/c"⟩] false
        (fun _ dst => dst = "/d/c") 7 ["/d/a", "/d/b"]).2.2 =
      .error (.exec ⟨.two, "/d/.anime-renamer-tmp-7-1000-b", "/d/c"⟩) ∧
    "/d/b" ∉ (executeRenameOperationsWith [⟨"/d/a", "/d/b"⟩, ⟨"/d/b", "/d/c"⟩] false
        (fun _ dst => dst = "/d/c") 7 ["/d/a", "/d/b"]).1 := by
  decide

/-! ## Batches of path moves -/

/-- Apply a batch of path moves in order (all succeeding). -/
def applyMoves : List (String × String) → Fs → Fs
  | [], fs => fs
  | m :: rest, fs => applyMoves rest (moveFs fs m.1 m.2)

/-- Safety conditions for a batch: sources present, destinations fresh,
sources pairwise distinct, destinations pairwise distinct, and no
destination equal to any source. -/
def MoveConds (fs : Fs) (ms : List (String × String)) : Prop :=
  (∀ m ∈ ms, m.1 ∈ fs) ∧ (∀ m ∈ ms, m.2 ∉ fs) ∧
    (ms.map Prod.fst).Nodup ∧ (ms.map Prod.snd).Nodup ∧
    (∀ m ∈ ms, ∀ m' ∈ ms, m.2 ≠ m'.1)

theorem mem_moveFs {fs : Fs} {s d : String} (hnd : fs.Nodup) (hds : d ≠ s) (p : String) :
    p ∈ moveFs fs s d ↔ p = d ∨ (p ∈ fs ∧ p ≠ s ∧ p ≠ d) := by
  unfold moveFs
  rw [List.mem_cons]
  constructor
  · rintro (rfl | hp)
    · exact Or.inl rfl
    · have h1 : p ∈ fs.erase s := List.mem_of_mem_erase hp
      have h2 : p ∈ fs := List.mem_of_mem_erase h1
      have hnd1 : (fs.erase s).Nodup := hnd.erase s
      have hpd : p ≠ d := ((List.Nodup.mem_erase_iff hnd1).mp hp).1
      have hps : p ≠ s := ((List.Nodup.mem_erase_iff hnd).mp h1).1
      exact Or.inr ⟨h2, hps, hpd⟩
  · rintro (rfl | ⟨h1, h2, h3⟩)
    · exact Or.inl rfl
    · refine Or.inr ?_
      rw [List.Nodup.mem_erase_iff (hnd.erase s), List.Nodup.mem_erase_iff hnd]
      exact ⟨h3, h2, h1⟩

theorem nodup_moveFs {fs : Fs} {s d : String} (hnd : fs.Nodup) : (moveFs fs s d).Nodup := by
  unfold moveFs
  rw [List.nodup_cons]
  have hnd1 : (fs.erase s).Nodup := hnd.erase s
  refine ⟨?_, hnd1.erase d⟩
  intro hc
  exact ((List.Nodup.mem_erase_iff hnd1).mp hc).1 rfl

theorem moveConds_step {fs : Fs} {s0 d0 : String} {ms : List (String × String)}
    (hnd : fs.Nodup) (h : MoveConds fs ((s0, d0) :: ms)) :
    (moveFs fs s0 d0).Nodup ∧ MoveConds (moveFs fs s0 d0) ms := by
  obtain ⟨hsrc, hdst, hsnd, hdnd, hcross⟩ := h
  have hd0s0 : d0 ≠ s0 :=
    hcross (s0, d0) (List.mem_cons_self ..) (s0, d0) (List.mem_cons_self ..)
  refine ⟨nodup_moveFs hnd, ?_, ?_, ?_, ?_, ?_⟩
  · intro m hm
    rw [mem_moveFs hnd hd0s0]
    refine Or.inr ⟨hsrc m (List.mem_cons_of_mem _ hm), ?_, ?_⟩
    · intro hc
      have : (ms.map Prod.fst).Nodup ∧ s0 ∉ ms.map Prod.fst := by
        rw [List.map_cons] at hsnd
        exact ⟨(List.nodup_cons.mp hsnd).2, (List.nodup_cons.mp hsnd).1⟩
      exact this.2 (hc ▸ List.mem_map_of_mem Prod.fst hm)
    · intro hc
      exact hcross (s0, d0) (List.mem_cons_self ..) m (List.mem_cons_of_mem _ hm) hc.symm
  · intro m hm hc
    rw [mem_moveFs hnd hd0s0] at hc
    rcases hc with hc | ⟨hc1, _, _⟩
    · rw [List.map_cons] at hdnd
      have hms : m.2 ∈ ms.map Prod.snd := List.mem_map_of_mem Prod.snd hm
      rw [hc] at hms
      exact (List.nodup_cons.mp hdnd).1 hms
    · exact hdst m (List.mem_cons_of_mem _ hm) hc1
  · rw [List.map_cons] at hsnd
    exact (List.nodup_cons.mp hsnd).2
  · rw [List.map_cons] at hdnd
    exact (List.nodup_cons.mp hdnd).2
  · intro m hm m' hm'
    exact hcross m (List.mem_cons_of_mem _ hm) m' (List.mem_cons_of_mem _ hm')

theorem mem_applyMoves (ms : List (String × String)) :
    ∀ fs : Fs, fs.Nodup → MoveConds fs ms →
      ((applyMoves ms fs).Nodup ∧
        ∀ p, (p ∈ applyMoves ms fs ↔
          p ∈ ms.map Prod.snd ∨ (p ∈ fs ∧ p ∉ ms.map Prod.fst))) := by
  induction ms with
  | nil =>
    intro fs hnd _
    refine ⟨hnd, fun p => ?_⟩
    simp [applyMoves]
  | cons m rest ih =>
    intro fs hnd hc
    obtain ⟨s0, d0⟩ := m
    obtain ⟨hnd2, hc2⟩ := moveConds_step hnd hc
    obtain ⟨hnd3, hiff⟩ := ih (moveFs fs s0 d0) hnd2 hc2
    obtain ⟨hsrc, hdst, hsnd, hdnd, hcross⟩ := hc
    have hd0s0 : d0 ≠ s0 :=
      hcross (s0, d0) (List.mem_cons_self ..) (s0, d0) (List.mem_cons_self ..)
    have hs0fs : s0 ∈ fs := hsrc (s0, d0) (List.mem_cons_self ..)
    have hd0fs : d0 ∉ fs := hdst (s0, d0) (List.mem_cons_self ..)
    have hs0s : s0 ∉ rest.map Prod.fst := by
      rw [List.map_cons] at hsnd
      exact (List.nodup_cons.mp hsnd).1
    have hd0d : d0 ∉ rest.map Prod.snd := by
      rw [List.map_cons] at hdnd
      exact (List.nodup_cons.mp hdnd).1
    have hd0src : ∀ m' ∈ (s0, d0) :: rest, d0 ≠ m'.1 :=
      fun m' hm' => hcross (s0, d0) (List.mem_cons_self ..) m' hm'
    have hs0dst : ∀ m' ∈ rest, m'.2 ≠ s0 := by
      intro m' hm' hcq
      exact hcross m' (List.mem_cons_of_mem _ hm') (s0, d0) (List.mem_cons_self ..) hcq
    refine ⟨hnd3, fun p => ?_⟩
    show p ∈ applyMoves rest (moveFs fs s0 d0) ↔ _
    rw [hiff p, mem_moveFs hnd hd0s0 p]
    simp only [List.map_cons, List.mem_cons]
    constructor
    · rintro (hp | ⟨(rfl | ⟨hp1, hp2, hp3⟩), hp4⟩)
      · exact Or.inl (Or.inr hp)
      · exact Or.inl (Or.inl rfl)
      · exact Or.inr ⟨hp1, fun hq => hq.elim hp2 hp4⟩
    · rintro ((hp | hp) | ⟨hp1, hp2⟩)
      · subst hp
        refine Or.inr ⟨Or.inl rfl, fun hq => ?_⟩
        rcases List.mem_map.mp hq with ⟨mm, hmm, hmmeq⟩
        exact hd0src mm (List.mem_cons_of_mem _ hmm) hmmeq.symm
      · exact Or.inl hp
      · refine Or.inr ⟨Or.inr ⟨hp1, fun hq => hp2 (Or.inl hq), ?_⟩, fun hq => hp2 (Or.inr hq)⟩
        intro hq
        exact hd0fs (hq ▸ hp1)

/-! ## Runs of the executor phases under the safety conditions -/

theorem phaseRun_ok (ph : Phase) (dstOf : renameState → String)
    (fault : String → String → Bool) :
    ∀ (sts : List renameState) (fs : Fs) (tr : List Ev), fs.Nodup →
      MoveConds fs (sts.map fun st => (st.currentPath, dstOf st)) →
      (∀ st ∈ sts, fault st.currentPath (dstOf st) = false) →
      phaseRun ph dstOf fault sts fs tr =
        (applyMoves (sts.map fun st => (st.currentPath, dstOf st)) fs,
          tr ++ sts.map fun st => Ev.renameCall st.currentPath (dstOf st),
          .ok (sts.map fun st => { st with currentPath := dstOf st })) := by
  intro sts
  induction sts with
  | nil =>
    intro fs tr _ _ _
    simp [phaseRun, applyMoves]
  | cons st rest ih =>
    intro fs tr hnd hmc hf
    have hf0 : fault st.currentPath (dstOf st) = false := hf st (List.mem_cons_self ..)
    have hsrc0 : st.currentPath ∈ fs := hmc.1 (st.currentPath, dstOf st) (by simp)
    have hro : renameOp fault fs st.currentPath (dstOf st) =
        some (moveFs fs st.currentPath (dstOf st)) := by
      simp [renameOp, hf0, hsrc0]
    obtain ⟨hnd2, hmc2⟩ := moveConds_step hnd (by simpa using hmc)
    have ihe := ih (moveFs fs st.currentPath (dstOf st))
      (tr ++ [Ev.renameCall st.currentPath (dstOf st)]) hnd2 hmc2
      fun t ht => hf t (List.mem_cons_of_mem _ ht)
    simp only [phaseRun, hro, ihe]
    simp [applyMoves]

theorem phaseRun_partial (ph : Phase) (dstOf : renameState → String)
    (fault : String → String → Bool) (stK : renameState) (back : List renameState) :
    ∀ (front : List renameState) (fs : Fs) (tr : List Ev), fs.Nodup →
      MoveConds fs (front.map fun st => (st.currentPath, dstOf st)) →
      (∀ st ∈ front, fault st.currentPath (dstOf st) = false) →
      fault stK.currentPath (dstOf stK) = true →
      phaseRun ph dstOf fault (front ++ stK :: back) fs tr =
        (applyMoves (front.map fun st => (st.currentPath, dstOf st)) fs,
          (tr ++ front.map fun st => Ev.renameCall st.currentPath (dstOf st)) ++
            [Ev.renameCall stK.currentPath (dstOf stK)],
          .error ((front.map fun st => { st with currentPath := dstOf st }) ++ stK :: back,
            ⟨ph, stK.currentPath, dstOf stK⟩)) := by
  intro front
  induction front with
  | nil =>
    intro fs tr _ _ _ hfk
    have hro : renameOp fault fs stK.currentPath (dstOf stK) = none := by
      simp [renameOp, hfk]
    simp [phaseRun, hro, applyMoves]
  | cons st rest ih =>
    intro fs tr hnd hmc hf hfk
    have hf0 : fault st.currentPath (dstOf st) = false := hf st (List.mem_cons_self ..)
    have hsrc0 : st.currentPath ∈ fs := hmc.1 (st.currentPath, dstOf st) (by simp)
    have hro : renameOp fault fs st.currentPath (dstOf st) =
        some (moveFs fs st.currentPath (dstOf st)) := by
      simp [renameOp, hf0, hsrc0]
    obtain ⟨hnd2, hmc2⟩ := moveConds_step hnd (by simpa using hmc)
    have ihe := ih (moveFs fs st.currentPath (dstOf st))
      (tr ++ [Ev.renameCall st.currentPath (dstOf st)]) hnd2 hmc2
      (fun t ht => hf t (List.mem_cons_of_mem _ ht)) hfk
    simp only [List.cons_append, phaseRun, hro, List.append_eq]
    rw [ihe]
    simp [applyMoves]

theorem rollback_ok (fault : String → String → Bool) :
    ∀ (sts : List renameState) (fs : Fs) (tr : List Ev), fs.Nodup →
      (∀ st ∈ sts, st.currentPath ≠ st.op.oldPath) →
      (∀ st ∈ sts, fault st.currentPath st.op.oldPath = false) →
      MoveConds fs (sts.map fun st => (st.currentPath, st.op.oldPath)) →
      rollbackRenameStates fault sts fs tr =
        (applyMoves (sts.map fun st => (st.currentPath, st.op.oldPath)) fs,
          tr ++ sts.map fun st => Ev.renameCall st.currentPath st.op.oldPath, []) := by
  intro sts
  induction sts with
  | nil =>
    intro fs tr _ _ _ _
    simp [rollbackRenameStates, applyMoves]
  | cons st rest ih =>
    intro fs tr hnd hne hf hmc
    have hne0 : st.currentPath ≠ st.op.oldPath := hne st (List.mem_cons_self ..)
    have hf0 : fault st.currentPath st.op.oldPath = false := hf st (List.mem_cons_self ..)
    have hsrc0 : st.currentPath ∈ fs := hmc.1 (st.currentPath, st.op.oldPath) (by simp)
    have hro : renameOp fault fs st.currentPath st.op.oldPath =
        some (moveFs fs st.currentPath st.op.oldPath) := by
      simp [renameOp, hf0, hsrc0]
    obtain ⟨hnd2, hmc2⟩ := moveConds_step hnd (by simpa using hmc)
    have ihe := ih (moveFs fs st.currentPath st.op.oldPath)
      (tr ++ [Ev.renameCall st.currentPath st.op.oldPath]) hnd2
      (fun t ht => hne t (List.mem_cons_of_mem _ ht))
      (fun t ht => hf t (List.mem_cons_of_mem _ ht)) hmc2
    simp only [rollbackRenameStates, if_neg hne0, hsrc0, if_pos, hro, ihe]
    simp [applyMoves]

/-! ## The planned temporary names and the state-building loop -/

/-- The first temp-path candidate tried for the instruction at `index`
(attempt 0): `dir/.anime-renamer-tmp-{pid}-{index*1000}-{base}`. -/
def tmpCand (pid : Nat) (oldPath : String) (index : Nat) : String :=
  goJoinS (goDirS oldPath)
    ⟨".anime-renamer-tmp-".data ++ natToChars pid ++ '-' ::
      (natToChars (index * 1000) ++ '-' :: (goBaseS oldPath).data)⟩

theorem buildTempPath_fresh {pid : Nat} {fs : Fs} {oldPath : String} {index : Nat}
    (h : tmpCand pid oldPath index ∉ fs) :
    buildTempPath pid fs oldPath index = some (tmpCand pid oldPath index) := by
  show (if tmpCand pid oldPath index ∈ fs then buildTempPathLoop pid fs oldPath index 999 1
    else some (tmpCand pid oldPath index)) = some (tmpCand pid oldPath index)
  rw [if_neg h]

/-- The states `buildStates` plans for a batch without no-ops, starting
at position `i`. -/
def stageStates (pid : Nat) (i : Nat) (ops : List RenameOperation) : List renameState :=
  (ops.enumFrom i).map fun p => ⟨p.2, tmpCand pid p.2.oldPath p.1, p.2.oldPath⟩

theorem buildStates_fresh (pid : Nat) (fs : Fs) :
    ∀ (ops : List RenameOperation) (i : Nat),
      (∀ op ∈ ops, op.oldPath ≠ op.newPath) →
      (∀ p ∈ ops.enumFrom i, tmpCand pid p.2.oldPath p.1 ∉ fs) →
      buildStates pid fs ops i = (.ok (stageStates pid i ops), []) := by
  intro ops
  induction ops with
  | nil =>
    intro i _ _
    rfl
  | cons op rest ih =>
    intro i hne htmp
    have hne0 : op.oldPath ≠ op.newPath := hne op (List.mem_cons_self ..)
    have htmp0 : tmpCand pid op.oldPath i ∉ fs := htmp (i, op) (by simp [List.enumFrom])
    have ihe := ih (i + 1) (fun y hy => hne y (List.mem_cons_of_mem _ hy))
      fun p hp => htmp p (by simp only [List.enumFrom]; exact List.mem_cons_of_mem _ hp)
    simp [buildStates, hne0, buildTempPath_fresh htmp0, ihe, stageStates, List.enumFrom,
      Except.map]

/-- The source, target, and first-candidate temp paths of a batch. -/
def opSources (ops : List RenameOperation) : List String := ops.map (·.oldPath)

def opTargets (ops : List RenameOperation) : List String := ops.map (·.newPath)

def opTemps (pid : Nat) (i : Nat) (ops : List RenameOperation) : List String :=
  (ops.enumFrom i).map fun p => tmpCand pid p.2.oldPath p.1

/-- The batch after phase one: every file at its temp path. -/
def stage1Done (pid : Nat) (i : Nat) (ops : List RenameOperation) : List renameState :=
  (ops.enumFrom i).map fun p =>
    ⟨p.2, tmpCand pid p.2.oldPath p.1, tmpCand pid p.2.oldPath p.1⟩

/-- Entries whose phase-two rename already succeeded: file at its target. -/
def stage2Done (pid : Nat) (i : Nat) (ops : List RenameOperation) : List renameState :=
  (ops.enumFrom i).map fun p => ⟨p.2, tmpCand pid p.2.oldPath p.1, p.2.newPath⟩

theorem mem_enumFrom_snd {α : Type} {p : Nat × α} {l : List α} {i : Nat}
    (h : p ∈ l.enumFrom i) : p.2 ∈ l := by
  have : p.2 ∈ (l.enumFrom i).map Prod.snd := List.mem_map_of_mem _ h
  rwa [List.enumFrom_map_snd] at this

theorem exists_enumFrom_of_mem {α : Type} {a : α} {l : List α} (i : Nat) (h : a ∈ l) :
    ∃ p ∈ l.enumFrom i, p.2 = a := by
  have : a ∈ (l.enumFrom i).map Prod.snd := by
    rw [List.enumFrom_map_snd]
    exact h
  exact List.mem_map.mp this

theorem enum_map_proj {α : Type} (f : RenameOperation → α) (ops : List RenameOperation)
    (i : Nat) : (ops.enumFrom i).map (fun p => f p.2) = ops.map f := by
  rw [show (fun p : Nat × RenameOperation => f p.2) = f ∘ Prod.snd from rfl, ← List.map_map,
    List.enumFrom_map_snd]

theorem nodup_rev_append_cons {l1 l2 : List String} {a : String}
    (h1 : l1.Nodup) (h2 : l2.Nodup) (ha1 : a ∉ l1) (ha2 : a ∉ l2)
    (hd : ∀ b ∈ l1, b ∉ l2) :
    (l1.reverse ++ a :: l2.reverse).Nodup := by
  rw [List.nodup_append]
  refine ⟨List.nodup_reverse.mpr h1,
    List.nodup_cons.mpr ⟨by simpa using ha2, List.nodup_reverse.mpr h2⟩, ?_⟩
  intro b hb hbc
  have hb1 : b ∈ l1 := List.mem_reverse.mp hb
  rcases List.mem_cons.mp hbc with rfl | hb2
  · exact ha1 hb1
  · exact hd b hb1 (List.mem_reverse.mp hb2)

/-- The moves phase one performs on a fresh batch: source to temp. -/
def opMoves1 (pid : Nat) (i : Nat) (ops : List RenameOperation) : List (String × String) :=
  (ops.enumFrom i).map fun p => (p.2.oldPath, tmpCand pid p.2.oldPath p.1)

/-- The moves phase two performs: temp to target. -/
def opMoves2 (pid : Nat) (i : Nat) (ops : List RenameOperation) : List (String × String) :=
  (ops.enumFrom i).map fun p => (tmpCand pid p.2.oldPath p.1, p.2.newPath)

/-- The moves rollback performs after phase two fails at `x` (every
instruction in `A` done, none in `B`): processed in reverse batch order,
the not-yet-renamed tail goes temp to source, the failed entry goes temp
to source, the completed prefix goes target to source. -/
def rbMoves (pid : Nat) (A B : List RenameOperation) (x : RenameOperation) :
    List (String × String) :=
  ((B.enumFrom (A.length + 1)).map fun p =>
      (tmpCand pid p.2.oldPath p.1, p.2.oldPath)).reverse ++
    (tmpCand pid x.oldPath A.length, x.oldPath) ::
    ((A.enumFrom 0).map fun p => (p.2.newPath, p.2.oldPath)).reverse

theorem opSources_split (A B : List RenameOperation) (x : RenameOperation) :
    opSources (A ++ x :: B) = opSources A ++ x.oldPath :: opSources B := by
  simp [opSources]

theorem opTargets_split (A B : List RenameOperation) (x : RenameOperation) :
    opTargets (A ++ x :: B) = opTargets A ++ x.newPath :: opTargets B := by
  simp [opTargets]

theorem opTemps_split (pid : Nat) (A B : List RenameOperation) (x : RenameOperation) :
    opTemps pid 0 (A ++ x :: B) =
      opTemps pid 0 A ++ tmpCand pid x.oldPath A.length :: opTemps pid (A.length + 1) B := by
  simp [opTemps, List.enumFrom_append, List.enumFrom]

theorem stage1Done_split (pid : Nat) (A B : List RenameOperation) (x : RenameOperation) :
    stage1Done pid 0 (A ++ x :: B) =
      stage1Done pid 0 A ++
        (⟨x, tmpCand pid x.oldPath A.length, tmpCand pid x.oldPath A.length⟩ : renameState) ::
        stage1Done pid (A.length + 1) B := by
  simp [stage1Done, List.enumFrom_append, List.enumFrom]

theorem opMoves1_fst (pid : Nat) (i : Nat) (ops : List RenameOperation) :
    (opMoves1 pid i ops).map Prod.fst = opSources ops := by
  unfold opMoves1
  rw [List.map_map]
  exact enum_map_proj (fun op => op.oldPath) ops i

theorem opMoves1_snd (pid : Nat) (i : Nat) (ops : List RenameOperation) :
    (opMoves1 pid i ops).map Prod.snd = opTemps pid i ops := by
  unfold opMoves1 opTemps
  rw [List.map_map]
  rfl

theorem opMoves2_fst (pid : Nat) (i : Nat) (ops : List RenameOperation) :
    (opMoves2 pid i ops).map Prod.fst = opTemps pid i ops := by
  unfold opMoves2 opTemps
  rw [List.map_map]
  rfl

theorem opMoves2_snd (pid : Nat) (i : Nat) (ops : List RenameOperation) :
    (opMoves2 pid i ops).map Prod.snd = opTargets ops := by
  unfold opMoves2
  rw [List.map_map]
  exact enum_map_proj (fun op => op.newPath) ops i

theorem rbMoves_fst (pid : Nat) (A B : List RenameOperation) (x : RenameOperation) :
    (rbMoves pid A B x).map Prod.fst =
      (opTemps pid (A.length + 1) B).reverse ++
        tmpCand pid x.oldPath A.length :: (opTargets A).reverse := by
  unfold rbMoves
  rw [List.map_append, List.map_cons, List.map_reverse, List.map_reverse, List.map_map,
    List.map_map]
  show (opTemps pid (A.length + 1) B).reverse ++
      tmpCand pid x.oldPath A.length :: ((A.enumFrom 0).map fun p => p.2.newPath).reverse = _
  rw [enum_map_proj (fun op => op.newPath) A 0]
  rfl

theorem rbMoves_snd (pid : Nat) (A B : List RenameOperation) (x : RenameOperation) :
    (rbMoves pid A B x).map Prod.snd =
      (opSources B).reverse ++ x.oldPath :: (opSources A).reverse := by
  unfold rbMoves
  rw [List.map_append, List.map_cons, List.map_reverse, List.map_reverse, List.map_map,
    List.map_map]
  show ((B.enumFrom (A.length + 1)).map fun p => p.2.oldPath).reverse ++
      x.oldPath :: ((A.enumFrom 0).map fun p => p.2.oldPath).reverse = _
  rw [enum_map_proj (fun op => op.oldPath) B (A.length + 1),
    enum_map_proj (fun op => op.oldPath) A 0]
  rfl

theorem stageStates_pairs (pid : Nat) (i : Nat) (ops : List RenameOperation) :
    (stageStates pid i ops).map (fun st => (st.currentPath, st.tempPath)) =
      opMoves1 pid i ops := by
  unfold stageStates opMoves1
  rw [List.map_map]
  rfl

theorem stageStates_step1 (pid : Nat) (i : Nat) (ops : List RenameOperation) :
    (stageStates pid i ops).map (fun st => { st with currentPath := st.tempPath }) =
      stage1Done pid i ops := by
  unfold stageStates stage1Done
  rw [List.map_map]
  rfl

theorem stage1Done_pairs (pid : Nat) (i : Nat) (ops : List RenameOperation) :
    (stage1Done pid i ops).map (fun st => (st.currentPath, st.op.newPath)) =
      opMoves2 pid i ops := by
  unfold stage1Done opMoves2
  rw [List.map_map]
  rfl

theorem stage1Done_step2 (pid : Nat) (i : Nat) (ops : List RenameOperation) :
    (stage1Done pid i ops).map (fun st => { st with currentPath := st.op.newPath }) =
      stage2Done pid i ops := by
  unfold stage1Done stage2Done
  rw [List.map_map]
  rfl

theorem rb_pairs (pid : Nat) (A B : List RenameOperation) (x : RenameOperation) :
    ((stage1Done pid (A.length + 1) B).reverse ++
        (⟨x, tmpCand pid x.oldPath A.length, tmpCand pid x.oldPath A.length⟩ : renameState) ::
        (stage2Done pid 0 A).reverse).map (fun st => (st.currentPath, st.op.oldPath)) =
      rbMoves pid A B x := by
  unfold stage1Done stage2Done rbMoves
  rw [List.map_append, List.map_cons, List.map_reverse, List.map_reverse, List.map_map,
    List.map_map]
  rfl

/-- Assembly of one failing live run: phase one succeeds, phase two
fails, rollback fully succeeds; the result is the rollback filesystem and
a clean phase error. -/
theorem execute_assembled {ops : List RenameOperation} {fault : String → String → Bool}
    {pid : Nat} {fs₀ : Fs} {sts sts1 all2 L : List renameState} {fs₁ fs₂ fs₃ : Fs}
    {tr₁ tr₂ tr₃ : List Ev} {e : RenameExecutionError}
    (hbs : buildStates pid fs₀ ops 0 = (.ok sts, []))
    (hne0 : sts.isEmpty = false)
    (hph1 : phase1 fault sts fs₀ [] = (fs₁, tr₁, .ok sts1))
    (hph2 : phase2 fault sts1 fs₁ tr₁ = (fs₂, tr₂, .error (all2, e)))
    (hrevEq : all2.reverse = L)
    (hrb : rollbackRenameStates fault L fs₂ tr₂ = (fs₃, tr₃, [])) :
    executeRenameOperationsWith ops false fault pid fs₀ = (fs₃, tr₃, .error (.exec e)) := by
  simp [executeRenameOperationsWith, hbs, hne0, hph1, hph2, hrevEq, hrb]

set_option maxHeartbeats 2000000 in
/-- C1 (amended): for a live (non-dry-run) batch whose sources, targets
and planned temp paths are pairwise distinct path names — sources present
in the filesystem, targets and temps absent — if every phase-one rename
succeeds, phase two succeeds on the prefix `A`, fails at `x`, and every
rollback rename succeeds, then the executor reports the phase-two
failure as a plain `exec` error and the filesystem ends with every
instruction's source path present and no target or temp path present:
the batch is fully rolled back.  (The claim's unconditional version is
refuted by `c1_counterexample`, where a target equals another source.) -/
theorem c1_phase_two_failure_rolls_back
    (fault : String → String → Bool) (pid : Nat) (fs₀ : Fs)
    (ops A B : List RenameOperation) (x : RenameOperation)
    (hops : ops = A ++ x :: B)
    (hne : ∀ op ∈ ops, op.oldPath ≠ op.newPath)
    (hsrc : ∀ op ∈ ops, op.oldPath ∈ fs₀)
    (htgt : ∀ op ∈ ops, op.newPath ∉ fs₀)
    (htmp : ∀ t ∈ opTemps pid 0 ops, t ∉ fs₀)
    (hndfs : fs₀.Nodup)
    (hdist : (opSources ops ++ opTargets ops ++ opTemps pid 0 ops).Nodup)
    (hf1 : ∀ p ∈ ops.enumFrom 0, fault p.2.oldPath (tmpCand pid p.2.oldPath p.1) = false)
    (hf2A : ∀ p ∈ A.enumFrom 0, fault (tmpCand pid p.2.oldPath p.1) p.2.newPath = false)
    (hf2x : fault (tmpCand pid x.oldPath A.length) x.newPath = true)
    (hrbA : ∀ op ∈ A, fault op.newPath op.oldPath = false)
    (hrbx : fault (tmpCand pid x.oldPath A.length) x.oldPath = false)
    (hrbB : ∀ p ∈ B.enumFrom (A.length + 1),
      fault (tmpCand pid p.2.oldPath p.1) p.2.oldPath = false) :
    (executeRenameOperationsWith ops false fault pid fs₀).2.2 =
      .error (.exec ⟨.two, tmpCand pid x.oldPath A.length, x.newPath⟩) ∧
    (∀ op ∈ ops, op.oldPath ∈ (executeRenameOperationsWith ops false fault pid fs₀).1) ∧
    (∀ op ∈ ops, op.newPath ∉ (executeRenameOperationsWith ops false fault pid fs₀).1) ∧
    ∀ t ∈ opTemps pid 0 ops, t ∉ (executeRenameOperationsWith ops false fault pid fs₀).1 := by
  subst hops
  -- split the distinctness hypothesis into its nine components
  have hdist' := hdist
  rw [List.nodup_append, List.nodup_append] at hdist'
  obtain ⟨⟨ndS, ndT, djST⟩, ndM, djSTM⟩ := hdist'
  have djSM : ∀ a ∈ opSources (A ++ x :: B), a ∉ opTemps pid 0 (A ++ x :: B) :=
    fun a ha hm => djSTM (List.mem_append_left _ ha) hm
  have djTM : ∀ a ∈ opTargets (A ++ x :: B), a ∉ opTemps pid 0 (A ++ x :: B) :=
    fun a ha hm => djSTM (List.mem_append_right _ ha) hm
  have hS := opSources_split A B x
  have hT := opTargets_split A B x
  have hM := opTemps_split pid A B x
  have ndS' := ndS
  rw [hS, List.nodup_append, List.nodup_cons] at ndS'
  obtain ⟨ndSA, ⟨hxoSB, ndSB⟩, djSA⟩ := ndS'
  have ndT' := ndT
  rw [hT, List.nodup_append, List.nodup_cons] at ndT'
  obtain ⟨ndTA, ⟨hxnTB, ndTB⟩, djTA⟩ := ndT'
  have ndM' := ndM
  rw [hM, List.nodup_append, List.nodup_cons] at ndM'
  obtain ⟨ndMA, ⟨htmpxMB, ndMB⟩, djMA⟩ := ndM'
  -- inclusions of the per-part path lists in the whole-batch ones
  have hSAin : ∀ a ∈ opSources A, a ∈ opSources (A ++ x :: B) := by
    intro a ha
    rw [hS]
    exact List.mem_append_left _ ha
  have hSBin : ∀ a ∈ opSources B, a ∈ opSources (A ++ x :: B) := by
    intro a ha
    rw [hS]
    exact List.mem_append_right _ (List.mem_cons_of_mem _ ha)
  have hxoin : x.oldPath ∈ opSources (A ++ x :: B) := by
    rw [hS]
    exact List.mem_append_right _ (List.mem_cons_self ..)
  have hTAin : ∀ a ∈ opTargets A, a ∈ opTargets (A ++ x :: B) := by
    intro a ha
    rw [hT]
    exact List.mem_append_left _ ha
  have hMAin : ∀ a ∈ opTemps pid 0 A, a ∈ opTemps pid 0 (A ++ x :: B) := by
    intro a ha
    rw [hM]
    exact List.mem_append_left _ ha
  have hMBin : ∀ a ∈ opTemps pid (A.length + 1) B, a ∈ opTemps pid 0 (A ++ x :: B) := by
    intro a ha
    rw [hM]
    exact List.mem_append_right _ (List.mem_cons_of_mem _ ha)
  have htmpxin : tmpCand pid x.oldPath A.length ∈ opTemps pid 0 (A ++ x :: B) := by
    rw [hM]
    exact List.mem_append_right _ (List.mem_cons_self ..)
  -- state building finds every first temp candidate fresh
  have hbs : buildStates pid fs₀ (A ++ x :: B) 0 =
      (.ok (stageStates pid 0 (A ++ x :: B)), []) :=
    buildStates_fresh pid fs₀ (A ++ x :: B) 0 hne
      fun p hp => htmp (tmpCand pid p.2.oldPath p.1)
        (List.mem_map_of_mem (fun q => tmpCand pid q.2.oldPath q.1) hp)
  have hne0 : (stageStates pid 0 (A ++ x :: B)).isEmpty = false := by
    cases A with
    | nil => simp [stageStates, List.enumFrom]
    | cons a A' => simp [stageStates, List.enumFrom]
  -- phase one: all sources move to their temps
  have hmc1 : MoveConds fs₀ (opMoves1 pid 0 (A ++ x :: B)) := by
    refine ⟨?_, ?_, ?_, ?_, ?_⟩
    · intro m hm
      simp only [opMoves1, List.mem_map] at hm
      obtain ⟨p, hp, rfl⟩ := hm
      exact hsrc p.2 (mem_enumFrom_snd hp)
    · intro m hm
      simp only [opMoves1, List.mem_map] at hm
      obtain ⟨p, hp, rfl⟩ := hm
      exact htmp (tmpCand pid p.2.oldPath p.1)
        (List.mem_map_of_mem (fun q => tmpCand pid q.2.oldPath q.1) hp)
    · rw [opMoves1_fst]
      exact ndS
    · rw [opMoves1_snd]
      exact ndM
    · intro m hm m' hm'
      simp only [opMoves1, List.mem_map] at hm hm'
      obtain ⟨p, hp, rfl⟩ := hm
      obtain ⟨q, hq, rfl⟩ := hm'
      intro hceq
      have hceq' : tmpCand pid p.2.oldPath p.1 = q.2.oldPath := hceq
      have h1 : tmpCand pid p.2.oldPath p.1 ∈ opTemps pid 0 (A ++ x :: B) :=
        List.mem_map_of_mem (fun r => tmpCand pid r.2.oldPath r.1) hp
      rw [hceq'] at h1
      exact djSM q.2.oldPath
        (List.mem_map_of_mem (fun op => op.oldPath) (mem_enumFrom_snd hq)) h1
  have hf1' : ∀ st ∈ stageStates pid 0 (A ++ x :: B),
      fault st.currentPath st.tempPath = false := by
    intro st hst
    simp only [stageStates, List.mem_map] at hst
    obtain ⟨p, hp, rfl⟩ := hst
    exact hf1 p hp
  have hmc1' : MoveConds fs₀
      ((stageStates pid 0 (A ++ x :: B)).map fun st => (st.currentPath, st.tempPath)) := by
    rw [stageStates_pairs]
    exact hmc1
  have hph1 := phaseRun_ok Phase.one (fun st => st.tempPath) fault
    (stageStates pid 0 (A ++ x :: B)) fs₀ [] hndfs hmc1' hf1'
  rw [stageStates_pairs, stageStates_step1] at hph1
  -- the filesystem after phase one
  obtain ⟨hnd1, hchar1pre⟩ := mem_applyMoves (opMoves1 pid 0 (A ++ x :: B)) fs₀ hndfs hmc1
  have hchar1 : ∀ p, p ∈ applyMoves (opMoves1 pid 0 (A ++ x :: B)) fs₀ ↔
      p ∈ opTemps pid 0 (A ++ x :: B) ∨ (p ∈ fs₀ ∧ p ∉ opSources (A ++ x :: B)) := by
    intro p
    rw [← opMoves1_snd pid 0 (A ++ x :: B), ← opMoves1_fst pid 0 (A ++ x :: B)]
    exact hchar1pre p
  -- phase two on the completed prefix A
  have hmc2 : MoveConds (applyMoves (opMoves1 pid 0 (A ++ x :: B)) fs₀)
      (opMoves2 pid 0 A) := by
    refine ⟨?_, ?_, ?_, ?_, ?_⟩
    · intro m hm
      simp only [opMoves2, List.mem_map] at hm
      obtain ⟨p, hp, rfl⟩ := hm
      exact (hchar1 _).mpr (Or.inl (hMAin _
        (List.mem_map_of_mem (fun q => tmpCand pid q.2.oldPath q.1) hp)))
    · intro m hm
      simp only [opMoves2, List.mem_map] at hm
      obtain ⟨p, hp, rfl⟩ := hm
      intro hc
      have hTmem : p.2.newPath ∈ opTargets (A ++ x :: B) :=
        List.mem_map_of_mem (fun op => op.newPath)
          (List.mem_append_left _ (mem_enumFrom_snd hp))
      rcases (hchar1 _).mp hc with hM1 | ⟨hfs, _⟩
      · exact djTM _ hTmem hM1
      · exact htgt p.2 (List.mem_append_left _ (mem_enumFrom_snd hp)) hfs
    · rw [opMoves2_fst]
      exact ndMA
    · rw [opMoves2_snd]
      exact ndTA
    · intro m hm m' hm'
      simp only [opMoves2, List.mem_map] at hm hm'
      obtain ⟨p, hp, rfl⟩ := hm
      obtain ⟨q, hq, rfl⟩ := hm'
      intro hceq
      have hceq' : p.2.newPath = tmpCand pid q.2.oldPath q.1 := hceq
      have hTmem : p.2.newPath ∈ opTargets (A ++ x :: B) :=
        List.mem_map_of_mem (fun op => op.newPath)
          (List.mem_append_left _ (mem_enumFrom_snd hp))
      have hMmem : tmpCand pid q.2.oldPath q.1 ∈ opTemps pid 0 (A ++ x :: B) :=
        hMAin _ (List.mem_map_of_mem (fun r => tmpCand pid r.2.oldPath r.1) hq)
      rw [hceq'] at hTmem
      exact djTM _ hTmem hMmem
  have hf2A' : ∀ st ∈ stage1Done pid 0 A, fault st.currentPath st.op.newPath = false := by
    intro st hst
    simp only [stage1Done, List.mem_map] at hst
    obtain ⟨p, hp, rfl⟩ := hst
    exact hf2A p hp
  have hmc2' : MoveConds (applyMoves (opMoves1 pid 0 (A ++ x :: B)) fs₀)
      ((stage1Done pid 0 A).map fun st => (st.currentPath, st.op.newPath)) := by
    rw [stage1Done_pairs]
    exact hmc2
  have hph2 := phaseRun_partial Phase.two (fun st => st.op.newPath) fault
    (⟨x, tmpCand pid x.oldPath A.length, tmpCand pid x.oldPath A.length⟩ : renameState)
    (stage1Done pid (A.length + 1) B) (stage1Done pid 0 A)
    (applyMoves (opMoves1 pid 0 (A ++ x :: B)) fs₀)
    ([] ++ (stageStates pid 0 (A ++ x :: B)).map fun st =>
      Ev.renameCall st.currentPath st.tempPath)
    hnd1 hmc2' hf2A' hf2x
  rw [stage1Done_pairs, stage1Done_step2, ← stage1Done_split pid A B x] at hph2
  -- the filesystem after the partial phase two
  obtain ⟨hnd2, hchar2pre⟩ := mem_applyMoves (opMoves2 pid 0 A)
    (applyMoves (opMoves1 pid 0 (A ++ x :: B)) fs₀) hnd1 hmc2
  have hchar2 : ∀ p, p ∈ applyMoves (opMoves2 pid 0 A)
        (applyMoves (opMoves1 pid 0 (A ++ x :: B)) fs₀) ↔
      p ∈ opTargets A ∨
        (p ∈ applyMoves (opMoves1 pid 0 (A ++ x :: B)) fs₀ ∧ p ∉ opTemps pid 0 A) := by
    intro p
    rw [← opMoves2_snd pid 0 A, ← opMoves2_fst pid 0 A]
    exact hchar2pre p
  -- classify the rollback moves
  have hrbcases : ∀ m ∈ rbMoves pid A B x,
      (∃ p ∈ B.enumFrom (A.length + 1), m = (tmpCand pid p.2.oldPath p.1, p.2.oldPath)) ∨
      m = (tmpCand pid x.oldPath A.length, x.oldPath) ∨
      ∃ q ∈ A.enumFrom 0, m = (q.2.newPath, q.2.oldPath) := by
    intro m hm
    simp only [rbMoves, List.mem_append, List.mem_cons, List.mem_reverse,
      List.mem_map] at hm
    rcases hm with ⟨p, hp, rfl⟩ | rfl | ⟨q, hq, rfl⟩
    · exact Or.inl ⟨p, hp, rfl⟩
    · exact Or.inr (Or.inl rfl)
    · exact Or.inr (Or.inr ⟨q, hq, rfl⟩)
  have hrb_snd_mem : ∀ m ∈ rbMoves pid A B x, m.2 ∈ opSources (A ++ x :: B) := by
    intro m hm
    rcases hrbcases m hm with ⟨p, hp, rfl⟩ | rfl | ⟨q, hq, rfl⟩
    · exact hSBin _ (List.mem_map_of_mem (fun op => op.oldPath) (mem_enumFrom_snd hp))
    · exact hxoin
    · exact hSAin _ (List.mem_map_of_mem (fun op => op.oldPath) (mem_enumFrom_snd hq))
  have hrb_fst_mem : ∀ m ∈ rbMoves pid A B x,
      m.1 ∈ opTemps pid 0 (A ++ x :: B) ∨ m.1 ∈ opTargets (A ++ x :: B) := by
    intro m hm
    rcases hrbcases m hm with ⟨p, hp, rfl⟩ | rfl | ⟨q, hq, rfl⟩
    · exact Or.inl (hMBin _
        (List.mem_map_of_mem (fun r => tmpCand pid r.2.oldPath r.1) hp))
    · exact Or.inl htmpxin
    · exact Or.inr (List.mem_map_of_mem (fun op => op.newPath)
        (List.mem_append_left _ (mem_enumFrom_snd hq)))
  have hmc3 : MoveConds (applyMoves (opMoves2 pid 0 A)
      (applyMoves (opMoves1 pid 0 (A ++ x :: B)) fs₀)) (rbMoves pid A B x) := by
    refine ⟨?_, ?_, ?_, ?_, ?_⟩
    · intro m hm
      rcases hrbcases m hm with ⟨p, hp, rfl⟩ | rfl | ⟨q, hq, rfl⟩
      · refine (hchar2 _).mpr (Or.inr ⟨(hchar1 _).mpr (Or.inl (hMBin _
          (List.mem_map_of_mem (fun r => tmpCand pid r.2.oldPath r.1) hp))), ?_⟩)
        intro hc
        exact djMA hc (List.mem_cons_of_mem _
          (List.mem_map_of_mem (fun r => tmpCand pid r.2.oldPath r.1) hp))
      · refine (hchar2 _).mpr (Or.inr ⟨(hchar1 _).mpr (Or.inl htmpxin), ?_⟩)
        intro hc
        exact djMA hc (List.mem_cons_self ..)
      · exact (hchar2 _).mpr (Or.inl
          (List.mem_map_of_mem (fun op => op.newPath) (mem_enumFrom_snd hq)))
    · intro m hm hc
      rcases (hchar2 _).mp hc with hc2 | ⟨hc1, _⟩
      · exact djST (hrb_snd_mem m hm) (hTAin _ hc2)
      · rcases (hchar1 _).mp hc1 with hm1 | ⟨_, hns⟩
        · exact djSM _ (hrb_snd_mem m hm) hm1
        · exact hns (hrb_snd_mem m hm)
    · rw [rbMoves_fst]
      refine nodup_rev_append_cons ndMB ndTA htmpxMB ?_ ?_
      · intro hc
        exact djTM _ (hTAin _ hc) htmpxin
      · intro b hb hc
        exact djTM _ (hTAin _ hc) (hMBin _ hb)
    · rw [rbMoves_snd]
      refine nodup_rev_append_cons ndSB ndSA hxoSB ?_ ?_
      · intro hc
        exact djSA hc (List.mem_cons_self ..)
      · intro b hb hc
        exact djSA hc (List.mem_cons_of_mem _ hb)
    · intro m hm m' hm'
      intro hceq
      rcases hrb_fst_mem m' hm' with h1 | h1
      · rw [← hceq] at h1
        exact djSM _ (hrb_snd_mem m hm) h1
      · rw [← hceq] at h1
        exact djST (hrb_snd_mem m hm) h1
  -- the rollback batch: every entry moves back and no issue is recorded
  have hrbne : ∀ st ∈ (stage1Done pid (A.length + 1) B).reverse ++
      (⟨x, tmpCand pid x.oldPath A.length, tmpCand pid x.oldPath A.length⟩ : renameState) ::
      (stage2Done pid 0 A).reverse, st.currentPath ≠ st.op.oldPath := by
    intro st hst
    simp only [List.mem_append, List.mem_cons, List.mem_reverse, stage1Done, stage2Done,
      List.mem_map] at hst
    rcases hst with ⟨p, hp, rfl⟩ | rfl | ⟨q, hq, rfl⟩
    · intro hc
      have hc' : tmpCand pid p.2.oldPath p.1 = p.2.oldPath := hc
      have h1 : tmpCand pid p.2.oldPath p.1 ∈ opTemps pid 0 (A ++ x :: B) :=
        hMBin _ (List.mem_map_of_mem (fun r => tmpCand pid r.2.oldPath r.1) hp)
      rw [hc'] at h1
      exact djSM _ (hSBin _
        (List.mem_map_of_mem (fun op => op.oldPath) (mem_enumFrom_snd hp))) h1
    · intro hc
      have hc' : tmpCand pid x.oldPath A.length = x.oldPath := hc
      have h1 := htmpxin
      rw [hc'] at h1
      exact djSM _ hxoin h1
    · intro hc
      have hc' : q.2.newPath = q.2.oldPath := hc
      exact hne q.2 (List.mem_append_left _ (mem_enumFrom_snd hq)) hc'.symm
  have hrbflt : ∀ st ∈ (stage1Done pid (A.length + 1) B).reverse ++
      (⟨x, tmpCand pid x.oldPath A.length, tmpCand pid x.oldPath A.length⟩ : renameState) ::
      (stage2Done pid 0 A).reverse, fault st.currentPath st.op.oldPath = false := by
    intro st hst
    simp only [List.mem_append, List.mem_cons, List.mem_reverse, stage1Done, stage2Done,
      List.mem_map] at hst
    rcases hst with ⟨p, hp, rfl⟩ | rfl | ⟨q, hq, rfl⟩
    · exact hrbB p hp
    · exact hrbx
    · exact hrbA q.2 (mem_enumFrom_snd hq)
  have hmc3' : MoveConds (applyMoves (opMoves2 pid 0 A)
      (applyMoves (opMoves1 pid 0 (A ++ x :: B)) fs₀))
      (((stage1Done pid (A.length + 1) B).reverse ++
        (⟨x, tmpCand pid x.oldPath A.length, tmpCand pid x.oldPath A.length⟩ : renameState) ::
        (stage2Done pid 0 A).reverse).map fun st => (st.currentPath, st.op.oldPath)) := by
    rw [rb_pairs]
    exact hmc3
  have hrbOK : ∀ tr : List Ev,
      rollbackRenameStates fault
        ((stage1Done pid (A.length + 1) B).reverse ++
          (⟨x, tmpCand pid x.oldPath A.length, tmpCand pid x.oldPath A.length⟩ : renameState) ::
          (stage2Done pid 0 A).reverse)
        (applyMoves (opMoves2 pid 0 A) (applyMoves (opMoves1 pid 0 (A ++ x :: B)) fs₀)) tr =
      (applyMoves (rbMoves pid A B x)
          (applyMoves (opMoves2 pid 0 A) (applyMoves (opMoves1 pid 0 (A ++ x :: B)) fs₀)),
        tr ++ ((stage1Done pid (A.length + 1) B).reverse ++
          (⟨x, tmpCand pid x.oldPath A.length, tmpCand pid x.oldPath A.length⟩ : renameState) ::
          (stage2Done pid 0 A).reverse).map fun st =>
            Ev.renameCall st.currentPath st.op.oldPath, []) := by
    intro tr
    have h := rollback_ok fault
      ((stage1Done pid (A.length + 1) B).reverse ++
        (⟨x, tmpCand pid x.oldPath A.length, tmpCand pid x.oldPath A.length⟩ : renameState) ::
        (stage2Done pid 0 A).reverse)
      (applyMoves (opMoves2 pid 0 A) (applyMoves (opMoves1 pid 0 (A ++ x :: B)) fs₀)) tr
      hnd2 hrbne hrbflt hmc3'
    rw [rb_pairs] at h
    exact h
  have hrev : (stage2Done pid 0 A ++
      (⟨x, tmpCand pid x.oldPath A.length, tmpCand pid x.oldPath A.length⟩ : renameState) ::
      stage1Done pid (A.length + 1) B).reverse =
      (stage1Done pid (A.length + 1) B).reverse ++
        (⟨x, tmpCand pid x.oldPath A.length, tmpCand pid x.oldPath A.length⟩ : renameState) ::
        (stage2Done pid 0 A).reverse := by
    simp
  have hrun := execute_assembled hbs hne0 hph1 hph2 hrev (hrbOK _)
  -- the final filesystem
  obtain ⟨hnd3, hchar3pre⟩ := mem_applyMoves (rbMoves pid A B x)
    (applyMoves (opMoves2 pid 0 A) (applyMoves (opMoves1 pid 0 (A ++ x :: B)) fs₀)) hnd2 hmc3
  have hchar3 : ∀ p, p ∈ applyMoves (rbMoves pid A B x)
        (applyMoves (opMoves2 pid 0 A) (applyMoves (opMoves1 pid 0 (A ++ x :: B)) fs₀)) ↔
      p ∈ (opSources B).reverse ++ x.oldPath :: (opSources A).reverse ∨
        (p ∈ applyMoves (opMoves2 pid 0 A) (applyMoves (opMoves1 pid 0 (A ++ x :: B)) fs₀) ∧
          p ∉ (opTemps pid (A.length + 1) B).reverse ++
            tmpCand pid x.oldPath A.length :: (opTargets A).reverse) := by
    intro p
    rw [← rbMoves_snd pid A B x, ← rbMoves_fst pid A B x]
    exact hchar3pre p
  have hrevS : ∀ a, a ∈ (opSources B).reverse ++ x.oldPath :: (opSources A).reverse →
      a ∈ opSources (A ++ x :: B) := by
    intro a h1
    rcases List.mem_append.mp h1 with h | h
    · exact hSBin _ (List.mem_reverse.mp h)
    · rcases List.mem_cons.mp h with he | h
      · rw [he]
        exact hxoin
      · exact hSAin _ (List.mem_reverse.mp h)
  rw [hrun]
  refine ⟨rfl, ?_, ?_, ?_⟩
  · intro op hop
    show op.oldPath ∈ applyMoves (rbMoves pid A B x)
      (applyMoves (opMoves2 pid 0 A) (applyMoves (opMoves1 pid 0 (A ++ x :: B)) fs₀))
    rw [hchar3]
    refine Or.inl ?_
    rcases List.mem_append.mp hop with h | h
    · exact List.mem_append_right _ (List.mem_cons_of_mem _
        (List.mem_reverse.mpr (List.mem_map_of_mem (fun o => o.oldPath) h)))
    · rcases List.mem_cons.mp h with rfl | h
      · exact List.mem_append_right _ (List.mem_cons_self ..)
      · exact List.mem_append_left _
          (List.mem_reverse.mpr (List.mem_map_of_mem (fun o => o.oldPath) h))
  · intro op hop hc
    have hc' : op.newPath ∈ applyMoves (rbMoves pid A B x)
        (applyMoves (opMoves2 pid 0 A) (applyMoves (opMoves1 pid 0 (A ++ x :: B)) fs₀)) := hc
    have hTop : op.newPath ∈ opTargets (A ++ x :: B) :=
      List.mem_map_of_mem (fun o => o.newPath) hop
    rcases (hchar3 _).mp hc' with h1 | ⟨h2, h3⟩
    · exact djST (hrevS _ h1) hTop
    · rcases List.mem_append.mp hop with hA | hxB
      · exact h3 (List.mem_append_right _ (List.mem_cons_of_mem _
          (List.mem_reverse.mpr (List.mem_map_of_mem (fun o => o.newPath) hA))))
      · rcases (hchar2 _).mp h2 with hTA | ⟨hfs1, _⟩
        · rcases List.mem_cons.mp hxB with rfl | hB
          · exact djTA hTA (List.mem_cons_self ..)
          · exact djTA hTA (List.mem_cons_of_mem _
              (List.mem_map_of_mem (fun o => o.newPath) hB))
        · rcases (hchar1 _).mp hfs1 with hM1 | ⟨hfs0, _⟩
          · exact djTM _ hTop hM1
          · exact htgt op hop hfs0
  · intro t ht hc
    have hc' : t ∈ applyMoves (rbMoves pid A B x)
        (applyMoves (opMoves2 pid 0 A) (applyMoves (opMoves1 pid 0 (A ++ x :: B)) fs₀)) := hc
    rcases (hchar3 _).mp hc' with h1 | ⟨h2, h3⟩
    · exact djSM _ (hrevS _ h1) ht
    · have htsplit : t ∈ opTemps pid 0 A ∨ t = tmpCand pid x.oldPath A.length ∨
          t ∈ opTemps pid (A.length + 1) B := by
        have ht' := ht
        rw [hM] at ht'
        rcases List.mem_append.mp ht' with h | h
        · exact Or.inl h
        · rcases List.mem_cons.mp h with he | h
          · exact Or.inr (Or.inl he)
          · exact Or.inr (Or.inr h)
      rcases htsplit with hMA1 | he | hMB1
      · rcases (hchar2 _).mp h2 with hTA | ⟨_, hnMA⟩
        · exact djTM _ (hTAin _ hTA) ht
        · exact hnMA hMA1
      · refine h3 (List.mem_append_right _ ?_)
        rw [he]
        exact List.mem_cons_self ..
      · exact h3 (List.mem_append_left _ (List.mem_reverse.mpr hMB1))

/-- C1 witness: a two-instruction batch with fully distinct paths whose
second phase-two rename fails; the executor reports a plain `exec` error
and both files are back at their source paths, with no target or temp
path left behind. -/
theorem c1_witness :
    (∀ op ∈ ([⟨"/d/a", "/d/b"⟩, ⟨"/d/c", "/d/e"⟩] : List RenameOperation),
      op.oldPath ≠ op.newPath) ∧
    (executeRenameOperationsWith [⟨"/d/a", "/d/b"⟩, ⟨"/d/c", "/d/e"⟩] false
        (fun _ dst => dst = "/d/e") 7 ["/d/a", "/d/c"]).2.2 =
      .error (.exec ⟨.two, tmpCand 7 "/d/c" 1, "/d/e"⟩) ∧
    (∀ op ∈ ([⟨"/d/a", "/d/b"⟩, ⟨"/d/c", "/d/e"⟩] : List RenameOperation),
      op.oldPath ∈ (executeRenameOperationsWith [⟨"/d/a", "/d/b"⟩, ⟨"/d/c", "/d/e"⟩] false
        (fun _ dst => dst = "/d/e") 7 ["/d/a", "/d/c"]).1) ∧
    (∀ op ∈ ([⟨"/d/a", "/d/b"⟩, ⟨"/d/c", "/d/e"⟩] : List RenameOperation),
      op.newPath ∉ (executeRenameOperationsWith [⟨"/d/a", "/d/b"⟩, ⟨"/d/c", "/d/e"⟩] false
        (fun _ dst => dst = "/d/e") 7 ["/d/a", "/d/c"]).1) ∧
    ∀ t ∈ opTemps 7 0 [⟨"/d/a", "/d/b"⟩, ⟨"/d/c", "/d/e"⟩],
      t ∉ (executeRenameOperationsWith [⟨"/d/a", "/d/b"⟩, ⟨"/d/c", "/d/e"⟩] false
        (fun _ dst => dst = "/d/e") 7 ["/d/a", "/d/c"]).1 :=
  ⟨by decide,
    c1_phase_two_failure_rolls_back (fun _ dst => dst = "/d/e") 7 ["/d/a", "/d/c"]
      [⟨"/d/a", "/d/b"⟩, ⟨"/d/c", "/d/e"⟩] [⟨"/d/a", "/d/b"⟩] [] ⟨"/d/c", "/d/e"⟩ rfl
      (by decide) (by decide) (by decide) (by decide) (by decide) (by decide) (by decide)
      (by decide) (by decide) (by decide) (by decide) (by decide)⟩

end AnimeRenamer
